import Mathlib

/-!
Verification development for the catalog synchronization and normalization
pipeline `scripts/update_catalogs.py`.

The Python source is shallowly embedded: Python runtime values appearing in
table cells and in parsed JSON are modelled by `PyVal`; Python code that can
raise is modelled with `Except`; the recursive tree walker is written with a
size-based fuel so that every definition is executable by kernel reduction.
External collaborators (the `requests` transport, the `pandas` CSV reader)
are modelled at the granularity the spec fixes for them; each such
definition carries a doc comment saying so.
-/

namespace IabCat

mutual

/-- Model of the Python runtime values that can appear in a parsed-JSON
document or in a table cell: `None`, `bool`, `int`, `str`, `list`, `dict`
(string keys, insertion ordered), plus floats (kept as their source lexeme;
no claim observes float arithmetic) and the JSON/pandas `nan`.  Lists and
dict entry sequences are mutual inductives rather than nested `List`s so
that recursion over them is structural and kernel-reducible. -/
inductive PyVal where
  | none : PyVal
  | nan : PyVal
  | bool (b : Bool) : PyVal
  | int (n : Int) : PyVal
  | float (lex : String) : PyVal
  | str (s : String) : PyVal
  | list (xs : PyList) : PyVal
  | dict (kvs : PyDict) : PyVal

/-- A Python list of `PyVal`s. -/
inductive PyList where
  | nil : PyList
  | cons (v : PyVal) (rest : PyList) : PyList

/-- The entry sequence of a Python dict (string keys, insertion ordered). -/
inductive PyDict where
  | nil : PyDict
  | cons (k : String) (v : PyVal) (rest : PyDict) : PyDict

end

/-- Convert a Lean list of values into a `PyList`. -/
def pl : List PyVal → PyList
  | [] => .nil
  | v :: vs => .cons v (pl vs)

/-- Convert a `PyList` back into a Lean list. -/
def PyList.toList : PyList → List PyVal
  | .nil => []
  | .cons v rest => v :: rest.toList

/-- The entries of a `PyDict` as a Lean association list. -/
def PyDict.entries : PyDict → List (String × PyVal)
  | .nil => []
  | .cons k v rest => (k, v) :: rest.entries

mutual

/-- Structural size of a `PyVal`; used as fuel for the tree walker. -/
def pySize : PyVal → Nat
  | .none => 1
  | .nan => 1
  | .bool _ => 1
  | .int _ => 1
  | .float _ => 1
  | .str _ => 1
  | .list xs => 1 + pySizeL xs
  | .dict kvs => 1 + pySizeD kvs

/-- Structural size of a `PyList`. -/
def pySizeL : PyList → Nat
  | .nil => 1
  | .cons v rest => 1 + pySize v + pySizeL rest

/-- Structural size of a `PyDict`. -/
def pySizeD : PyDict → Nat
  | .nil => 1
  | .cons _ v rest => 1 + pySize v + pySizeD rest

end

/-- Python whitespace for `str.strip` and the regex class `\s`
(ASCII range: space, tab, newline, carriage return, vertical tab,
form feed). -/
def isPyWs (c : Char) : Bool :=
  c == ' ' || c == '\t' || c == '\n' || c == '\r' || c == '\x0b' || c == '\x0c'

/-- Python `str.strip()`: remove leading and trailing whitespace. -/
def pyStrip (s : String) : String :=
  String.mk (((s.toList.dropWhile isPyWs).reverse.dropWhile isPyWs).reverse)

/-- Python `str.lower()` on the ASCII alphabet (all strings handled by the
program are ASCII; `Char.toLower` agrees with Python there). -/
def pyLower (s : String) : String :=
  String.mk (s.toList.map Char.toLower)

/-- Boolean test that one character list is a prefix of another. -/
def listPrefix : List Char → List Char → Bool
  | [], _ => true
  | _ :: _, [] => false
  | c :: cs, d :: ds => c == d && listPrefix cs ds

/-- Boolean test that the first character list occurs inside the second
(Python's `needle in hay`). -/
def containsChars : List Char → List Char → Bool
  | needle, [] => needle.isEmpty
  | needle, d :: ds => listPrefix needle (d :: ds) || containsChars needle ds

/-- Python `needle in hay` on strings. -/
def strContains (hay needle : String) : Bool :=
  containsChars needle.toList hay.toList

/-- Python `s.startswith(p)`. -/
def strStartsWith (s p : String) : Bool :=
  listPrefix p.toList s.toList

/-- Python `s.endswith(p)`. -/
def strEndsWith (s p : String) : Bool :=
  listPrefix p.toList.reverse s.toList.reverse

/-- Split a character list at every character satisfying `p`, keeping empty
pieces, as Python `re.split` with a single-character alternation does. -/
def splitChars (p : Char → Bool) : List Char → List Char → List String
  | [], cur => [String.mk cur.reverse]
  | c :: rest, cur =>
    if p c then String.mk cur.reverse :: splitChars p rest []
    else splitChars p rest (c :: cur)

/-- Split a string at every character satisfying `p`, keeping empty pieces. -/
def splitStr (p : Char → Bool) (s : String) : List String :=
  splitChars p s.toList []

/-- Python `str.splitlines()` for the terminators the pipeline's inputs use:
`\n`, `\r\n` and `\r`; no trailing empty line is produced. -/
def splitlinesAux : List Char → List Char → List String
  | [], cur => if cur.isEmpty then [] else [String.mk cur.reverse]
  | '\r' :: '\n' :: rest, cur => String.mk cur.reverse :: splitlinesAux rest []
  | '\r' :: rest, cur => String.mk cur.reverse :: splitlinesAux rest []
  | '\n' :: rest, cur => String.mk cur.reverse :: splitlinesAux rest []
  | c :: rest, cur => splitlinesAux rest (c :: cur)

/-- Python `text.splitlines()`. -/
def pySplitlines (s : String) : List String :=
  splitlinesAux s.toList []

/-- Numeric value of a decimal digit string (`int(...)` on a digit group). -/
def natOfDigits (ds : List Char) : Nat :=
  ds.foldl (fun n c => 10 * n + (c.toNat - 48)) 0

/-- Truthiness of a Python value (`bool(v)`).  A float is truthy unless its
mantissa digits are all zero. -/
def pyTruthy : PyVal → Bool
  | .none => false
  | .nan => true
  | .bool b => b
  | .int n => !(n == 0)
  | .float lex =>
    !(((lex.toList.takeWhile (fun c => !(c == 'e' || c == 'E'))).filter
        Char.isDigit).all (fun c => c == '0'))
  | .str s => !(s == "")
  | .list .nil => false
  | .list (.cons _ _) => true
  | .dict .nil => false
  | .dict (.cons _ _ _) => true

/-- Python `a or b`. -/
def pyOr (a b : PyVal) : PyVal :=
  if pyTruthy a then a else b

/-- A single-quote character, for Python `repr` of strings. -/
def quoteChar : String :=
  String.singleton (Char.ofNat 39)

mutual

/-- Python `repr(v)` for the value model.  String escaping inside `repr` and
the canonical decimal rendering of floats are elided: no theorem in this
development observes the rendering of a container or float cell, only that
it is some string not equal to a trimmed alphanumeric token. -/
def pyRepr : PyVal → String
  | .none => "None"
  | .nan => "nan"
  | .bool b => if b then "True" else "False"
  | .int n => toString n
  | .float lex => lex
  | .str s => quoteChar ++ s ++ quoteChar
  | .list xs => "[" ++ String.intercalate ", " (pyReprL xs) ++ "]"
  | .dict kvs => "\x7b" ++ String.intercalate ", " (pyReprD kvs) ++ "\x7d"

/-- Element renderings for `repr` of a list. -/
def pyReprL : PyList → List String
  | .nil => []
  | .cons v rest => pyRepr v :: pyReprL rest

/-- Entry renderings for `repr` of a dict. -/
def pyReprD : PyDict → List String
  | .nil => []
  | .cons k v rest =>
    (quoteChar ++ k ++ quoteChar ++ ": " ++ pyRepr v) :: pyReprD rest

end

/-- Python `str(v)`:  strings render as themselves, every other value as its
`repr` (which agrees with `str` on all the non-string cases used here). -/
def pyStr : PyVal → String
  | .str s => s
  | .none => "None"
  | .nan => "nan"
  | .bool b => if b then "True" else "False"
  | .int n => toString n
  | .float lex => lex
  | .list xs => pyRepr (.list xs)
  | .dict kvs => pyRepr (.dict kvs)

/-- Errors raised by the embedded Python code.  `unsupportedFormat` is the
`ValueError("Unsupported file format for ...")` of `parse_table`;
`inferFail` is the `ValueError("Could not infer ... columns")` of the
normalizers; `notIterable` is the `TypeError` Python raises when the tree
walker's `for c in children` loop receives a truthy non-iterable;
`mixedFlatList` is the error `pd.DataFrame` raises on a list mixing
mappings and scalars; `transport` is a `requests` exception. -/
inductive PyErr where
  | unsupportedFormat : PyErr
  | inferFail : PyErr
  | notIterable : PyErr
  | mixedFlatList : PyErr
  | transport : PyErr
deriving DecidableEq

/-- A file entry of the upstream directory listing (`FileMeta` in the
source). -/
structure FileMeta where
  name : String
  download_url : String
deriving DecidableEq

/-- Case-insensitive literal match (`re.I`): consume `pat` from the head of
`cs`, returning the rest. -/
def matchCI : List Char → List Char → Option (List Char)
  | [], rest => some rest
  | _ :: _, [] => Option.none
  | p :: ps, c :: rest =>
    if Char.toLower c == Char.toLower p then matchCI ps rest else Option.none

/-- Embeds `_VER_RE.search`: try to match, at the head of `cs`, the pattern
`Content\s*Taxonomy\s*(\d+)\.(\d+)` with `re.I`.  `\s*` and `\d+` have no
overlap with the literal text or with `\.`, so the backtracking regex and
this deterministic matcher accept exactly the same strings. -/
def matchVerAt (cs : List Char) : Option (Nat × Nat) :=
  match matchCI "content".toList cs with
  | Option.none => Option.none
  | some r1 =>
    match matchCI "taxonomy".toList (r1.dropWhile isPyWs) with
    | Option.none => Option.none
    | some r2 =>
      let r2b := r2.dropWhile isPyWs
      let maj := r2b.takeWhile Char.isDigit
      if maj.isEmpty then Option.none
      else
        match r2b.dropWhile Char.isDigit with
        | '.' :: r3 =>
          let minr := r3.takeWhile Char.isDigit
          if minr.isEmpty then Option.none
          else some (natOfDigits maj, natOfDigits minr)
        | _ => Option.none

/-- Leftmost search of the version pattern (`re.search`). -/
def searchVer : List Char → Option (Nat × Nat)
  | [] => matchVerAt []
  | c :: rest =>
    match matchVerAt (c :: rest) with
    | some v => some v
    | Option.none => searchVer rest

/-- Embeds `parse_version_from_name`. -/
def parse_version_from_name (name : String) : Option (Nat × Nat) :=
  searchVer name.toList

/-- The declarative reading of `Content\s*Taxonomy\s*(\d+)\.(\d+)` with
`re.I`, anchored at the head: the characters decompose into the word
"content" in any letter case, optional whitespace, the word "taxonomy" in
any letter case, optional whitespace, one or more digits, a dot, one or
more digits, and arbitrary remaining text. -/
def VersionPhraseAt (cs : List Char) : Prop :=
  ∃ c1 w1 c2 w2 d1 d2 rest,
    cs = c1 ++ w1 ++ c2 ++ w2 ++ d1 ++ '.' :: d2 ++ rest ∧
    c1.map Char.toLower = "content".toList ∧
    c2.map Char.toLower = "taxonomy".toList ∧
    (∀ c ∈ w1, isPyWs c = true) ∧
    (∀ c ∈ w2, isPyWs c = true) ∧
    d1 ≠ [] ∧ (∀ c ∈ d1, c.isDigit = true) ∧
    d2 ≠ [] ∧ (∀ c ∈ d2, c.isDigit = true)

/-- The declarative reading of `_VER_RE.search` succeeding: some suffix of
the text begins with the version phrase. -/
def ContainsVersionPhrase (cs : List Char) : Prop :=
  ∃ pre suf, cs = pre ++ suf ∧ VersionPhraseAt suf

/-- The minor version of `f` when `f`'s name carries the requested major
version; the candidate filter of `pick_latest`. -/
def candMinor (major : Nat) (f : FileMeta) : Option Nat :=
  match parse_version_from_name f.name with
  | some (maj, minr) => if maj == major then some minr else Option.none
  | Option.none => Option.none

/-- First element of a list maximizing its `Nat` key: the head of the list
after Python's stable `sort(key=..., reverse=True)`, which keeps equal keys
in their original order. -/
def firstMax (c : Nat × FileMeta) : List (Nat × FileMeta) → Nat × FileMeta
  | [] => c
  | x :: xs => firstMax (if x.1 > c.1 then x else c) xs

/-- Embeds `pick_latest`: collect the files whose name yields the requested
major version, sort stably by minor version descending, take the first.
The stable descending sort followed by `[0]` is modelled directly as
selecting the first candidate with maximal minor. -/
def pick_latest (files : List FileMeta) (major : Nat) : Option FileMeta :=
  let candidates := files.filterMap (fun f => (candMinor major f).map (·, f))
  match candidates with
  | [] => Option.none
  | c :: cs => some (firstMax c cs).2

/-- A table row: a mapping from column label to cell value, insertion
ordered (a pandas row viewed through `.get`). -/
def TRow : Type := List (String × PyVal)

/-- The normalized tabular dataset (`pd.DataFrame` at the granularity the
pipeline observes it): the ordered column labels and the ordered rows. -/
structure DataFrame where
  cols : List String
  rows : List TRow

/-- Python `row.get(k)` on a pandas row (default `None`). -/
def rowGet (r : TRow) (k : String) : PyVal :=
  match List.find? (fun p => p.1 == k) r with
  | some p => p.2
  | Option.none => PyVal.none

/-- Insert with overwrite into an insertion-ordered association list: the
semantics of assigning `d[k] = v` to a Python dict (an existing key keeps
its position, a new key goes to the end). -/
def upsert {α : Type} : List (String × α) → String → α → List (String × α)
  | [], k, v => [(k, v)]
  | (k0, v0) :: rest, k, v =>
    if k0 == k then (k0, v) :: rest else (k0, v0) :: upsert rest k v

/-- Embeds the dict comprehension of the normalizers,
`cols = {c.lower(): c for c in df.columns}`. -/
def colsMap (headers : List String) : List (String × String) :=
  headers.foldl (fun acc c => upsert acc (pyLower c) c) []

/-- Embeds `next((cols[k] for k in cols if k in aliases), None)`: scan the
dict's keys in insertion order, return the value of the first key in the
alias set. -/
def findAlias (cols : List (String × String)) (aliases : List String) :
    Option String :=
  (List.find? (fun p => aliases.contains p.1) cols).map Prod.snd

/-- Truthiness of an `Optional[str]` (`if not id_col`). -/
def optTruthy : Option String → Bool
  | Option.none => false
  | some s => !(s == "")

/-- Modelled from the spec: the `pandas.read_csv(sio, sep=..., header=n)`
collaborator, producing the spec's RawTable — drop the lines before the
header row, key the remaining lines by the trimmed header tokens, and keep
cell values as raw strings.  (Quoting, blank-line skipping and the NaN
coercion of empty cells are below the granularity the spec fixes and are
not observed by any claim.) -/
def read_csv (text : String) (sep : Char) (headerIdx : Nat) : DataFrame :=
  match (pySplitlines text).drop headerIdx with
  | [] => ⟨[], []⟩
  | h :: rest =>
    let cols := (splitStr (fun c => c == sep) h).map pyStrip
    ⟨cols, rest.map (fun line =>
      cols.zip ((splitStr (fun c => c == sep) line).map PyVal.str))⟩

/-- The header-detection test of `parse_table`: the line, lower-cased,
contains both `"unique id"` and `"name"`. -/
def qualifiesHeader (line : String) : Bool :=
  strContains (pyLower line) "unique id" && strContains (pyLower line) "name"

/-- The header-scan loop of `parse_table` over an enumerated line window:
index of the first qualifying line, `0` when none qualifies. -/
def headerScanAux : List String → Nat → Nat
  | [], _ => 0
  | l :: ls, i => if qualifiesHeader l then i else headerScanAux ls (i + 1)

/-- Embeds the header detection of `parse_table`: scan the first 10 lines. -/
def headerScan (lines : List String) : Nat :=
  headerScanAux (lines.take 10) 0

/-- JSON whitespace (the characters `json.loads` skips between tokens). -/
def jsonWsChar (c : Char) : Bool :=
  c == ' ' || c == '\t' || c == '\n' || c == '\r'

/-- Skip JSON whitespace. -/
def skipWs (cs : List Char) : List Char :=
  cs.dropWhile jsonWsChar

/-- Value of one hexadecimal digit. -/
def hexVal (c : Char) : Option Nat :=
  if c.isDigit then some (c.toNat - 48)
  else if 'a' ≤ c && c ≤ 'f' then some (c.toNat - 87)
  else if 'A' ≤ c && c ≤ 'F' then some (c.toNat - 55)
  else Option.none

/-- Body of a JSON string literal after the opening quote: collect
characters until the closing quote, decoding escapes; reject raw control
characters and bad escapes as `json.loads` (strict mode) does.  A `\u`
escape decodes to the code point directly (surrogate pairing elided; no
claim observes non-ASCII text). -/
def parseStrAux : List Char → List Char → Option (String × List Char)
  | [], _ => Option.none
  | '"' :: rest, acc => some (String.mk acc.reverse, rest)
  | '\\' :: e :: rest, acc =>
    match e with
    | '"' => parseStrAux rest ('"' :: acc)
    | '\\' => parseStrAux rest ('\\' :: acc)
    | '/' => parseStrAux rest ('/' :: acc)
    | 'n' => parseStrAux rest ('\n' :: acc)
    | 't' => parseStrAux rest ('\t' :: acc)
    | 'r' => parseStrAux rest ('\r' :: acc)
    | 'b' => parseStrAux rest ('\x08' :: acc)
    | 'f' => parseStrAux rest ('\x0c' :: acc)
    | 'u' =>
      match rest with
      | h1 :: h2 :: h3 :: h4 :: rest2 =>
        match hexVal h1, hexVal h2, hexVal h3, hexVal h4 with
        | some a, some b, some c, some d =>
          parseStrAux rest2 (Char.ofNat (((a * 16 + b) * 16 + c) * 16 + d) :: acc)
        | _, _, _, _ => Option.none
      | _ => Option.none
    | _ => Option.none
  | c :: rest, acc =>
    if c.toNat < 32 then Option.none else parseStrAux rest (c :: acc)

/-- A JSON number token: optional sign, integer part with no leading zeros,
optional fraction, optional exponent.  A token with a fraction or exponent
becomes a `PyVal.float` carrying its lexeme; otherwise a `PyVal.int`. -/
def parseNum (cs : List Char) : Option (PyVal × List Char) :=
  let sign : List Char × List Char :=
    match cs with
    | '-' :: r => (['-'], r)
    | _ => ([], cs)
  let ip := sign.2.takeWhile Char.isDigit
  let r1 := sign.2.dropWhile Char.isDigit
  if ip.isEmpty then Option.none
  else if 1 < ip.length && listPrefix ['0'] ip then Option.none
  else
    let frac : Option (List Char × List Char) :=
      match r1 with
      | '.' :: r2 =>
        let fd := r2.takeWhile Char.isDigit
        if fd.isEmpty then Option.none
        else some ('.' :: fd, r2.dropWhile Char.isDigit)
      | _ => Option.none
    let r2 := (frac.map Prod.snd).getD r1
    let expo : Option (List Char × List Char) :=
      match r2 with
      | 'e' :: r3 =>
        match r3 with
        | '+' :: r4 =>
          let ed := r4.takeWhile Char.isDigit
          if ed.isEmpty then Option.none
          else some ('e' :: '+' :: ed, r4.dropWhile Char.isDigit)
        | '-' :: r4 =>
          let ed := r4.takeWhile Char.isDigit
          if ed.isEmpty then Option.none
          else some ('e' :: '-' :: ed, r4.dropWhile Char.isDigit)
        | _ =>
          let ed := r3.takeWhile Char.isDigit
          if ed.isEmpty then Option.none
          else some ('e' :: ed, r3.dropWhile Char.isDigit)
      | 'E' :: r3 =>
        match r3 with
        | '+' :: r4 =>
          let ed := r4.takeWhile Char.isDigit
          if ed.isEmpty then Option.none
          else some ('E' :: '+' :: ed, r4.dropWhile Char.isDigit)
        | '-' :: r4 =>
          let ed := r4.takeWhile Char.isDigit
          if ed.isEmpty then Option.none
          else some ('E' :: '-' :: ed, r4.dropWhile Char.isDigit)
        | _ =>
          let ed := r3.takeWhile Char.isDigit
          if ed.isEmpty then Option.none
          else some ('E' :: ed, r3.dropWhile Char.isDigit)
      | _ => Option.none
    let rest := (expo.map Prod.snd).getD r2
    if frac.isSome || expo.isSome then
      some (.float (String.mk (sign.1 ++ ip ++ ((frac.map Prod.fst).getD []) ++
        ((expo.map Prod.fst).getD []))), rest)
    else
      let n : Int := Int.ofNat (natOfDigits ip)
      some (.int (if sign.1.isEmpty then n else -n), rest)

/-- Insert with overwrite into a `PyDict`: the dict-building step of the
JSON object decoder (duplicate keys keep the first position, last value
wins, as in CPython). -/
def upsertD : PyDict → String → PyVal → PyDict
  | .nil, k, v => .cons k v .nil
  | .cons k0 v0 rest, k, v =>
    if k0 == k then .cons k0 v rest else .cons k0 v0 (upsertD rest k v)

mutual

/-- One JSON value at the head of `cs` (whitespace already skipped), as
`json.loads` accepts it, including the CPython extensions `NaN`,
`Infinity` and `-Infinity`.  The fuel only bounds nesting and element
counts; every recursive call strictly consumes input, so the
`length + 1` fuel supplied by `jsonLoads` never runs out. -/
def parseVal : Nat → List Char → Option (PyVal × List Char)
  | 0, _ => Option.none
  | _ + 1, [] => Option.none
  | fuel + 1, c :: cs =>
    match c :: cs with
    | 'n' :: 'u' :: 'l' :: 'l' :: rest => some (.none, rest)
    | 't' :: 'r' :: 'u' :: 'e' :: rest => some (.bool true, rest)
    | 'f' :: 'a' :: 'l' :: 's' :: 'e' :: rest => some (.bool false, rest)
    | 'N' :: 'a' :: 'N' :: rest => some (.nan, rest)
    | 'I' :: 'n' :: 'f' :: 'i' :: 'n' :: 'i' :: 't' :: 'y' :: rest =>
      some (.float "inf", rest)
    | '-' :: 'I' :: 'n' :: 'f' :: 'i' :: 'n' :: 'i' :: 't' :: 'y' :: rest =>
      some (.float "-inf", rest)
    | '"' :: rest =>
      match parseStrAux rest [] with
      | some (s, r2) => some (.str s, r2)
      | Option.none => Option.none
    | '[' :: rest =>
      match skipWs rest with
      | ']' :: r2 => some (.list .nil, r2)
      | r => (parseArrItems fuel r).map (fun p => (.list p.1, p.2))
    | '\x7b' :: rest =>
      match skipWs rest with
      | '\x7d' :: r2 => some (.dict .nil, r2)
      | r => (parseObjItems fuel r .nil).map (fun p => (.dict p.1, p.2))
    | _ => parseNum (c :: cs)

/-- The elements of a JSON array, positioned at an element start; returns
at the closing bracket. -/
def parseArrItems : Nat → List Char → Option (PyList × List Char)
  | 0, _ => Option.none
  | fuel + 1, cs =>
    match parseVal fuel cs with
    | Option.none => Option.none
    | some (v, rest) =>
      match skipWs rest with
      | ',' :: r2 =>
        match parseArrItems fuel (skipWs r2) with
        | some (vs, r3) => some (.cons v vs, r3)
        | Option.none => Option.none
      | ']' :: r2 => some (.cons v .nil, r2)
      | _ => Option.none

/-- The members of a JSON object, positioned at a key start; accumulates
into `acc` with dict-assignment semantics; returns at the closing brace. -/
def parseObjItems : Nat → List Char → PyDict → Option (PyDict × List Char)
  | 0, _, _ => Option.none
  | fuel + 1, cs, acc =>
    match cs with
    | '"' :: r =>
      match parseStrAux r [] with
      | some (key, r2) =>
        match skipWs r2 with
        | ':' :: r3 =>
          match parseVal fuel (skipWs r3) with
          | some (v, r4) =>
            match skipWs r4 with
            | ',' :: r5 => parseObjItems fuel (skipWs r5) (upsertD acc key v)
            | '\x7d' :: r5 => some (upsertD acc key v, r5)
            | _ => Option.none
          | Option.none => Option.none
        | _ => Option.none
      | Option.none => Option.none
    | _ => Option.none

end

/-- Embeds `json.loads`: parse one value, allow only trailing whitespace. -/
def jsonLoads (s : String) : Option PyVal :=
  match parseVal (s.length + 1) (skipWs s.toList) with
  | some (v, rest) => if (skipWs rest).isEmpty then some v else Option.none
  | Option.none => Option.none

/-- Python `node.get(k)` on a dict (default `None`). -/
def pyGet (d : PyDict) (k : String) : PyVal :=
  match d with
  | .nil => .none
  | .cons k0 v rest => if k0 == k then v else pyGet rest k

/-- The row the tree walker appends for a node:
`{"id": nid, "label": label, "path": ancestors + [label], "scd": scd}`. -/
def nodeRow (nid label : PyVal) (ancestors : List PyVal) (scd : PyVal) :
    TRow :=
  [("id", nid), ("label", label),
   ("path", .list (pl (ancestors ++ [label]))), ("scd", scd)]

/-- The walker's `children` expression:
`node.get("children") or node.get("nodes") or []`. -/
def childrenOf (node : PyDict) : PyVal :=
  pyOr (pyOr (pyGet node "children") (pyGet node "nodes")) (.list .nil)

/-- The walker's `nid` expression: `node.get("id") or node.get("code")`. -/
def nidOf (node : PyDict) : PyVal :=
  pyOr (pyGet node "id") (pyGet node "code")

/-- The walker's `label` expression:
`node.get("label") or node.get("name")`. -/
def labelOf (node : PyDict) : PyVal :=
  pyOr (pyGet node "label") (pyGet node "name")

/-- The walker's `scd` expression:
`node.get("scd") or node.get("is_scd") or node.get("sensitive")`. -/
def scdOf (node : PyDict) : PyVal :=
  pyOr (pyOr (pyGet node "scd") (pyGet node "is_scd")) (pyGet node "sensitive")

mutual

/-- Embeds the recursive `walk(node, ancestors)` of `parse_table`: emit a row
when both `nid` and `label` are truthy, then visit the children, extending
the ancestor list by `label` exactly when `label` is truthy.  Iterating a
truthy non-iterable `children` value raises `TypeError` (`notIterable`);
iterating a dict or string yields only non-dict elements, which the
`isinstance(c, dict)` guard skips.  The fuel only bounds recursion depth;
`pySize`-derived fuel never runs out (`walkF_fuel_irrel`). -/
def walkF : Nat → PyDict → List PyVal → Except PyErr (List TRow)
  | 0, _, _ => .error .notIterable
  | fuel + 1, node, ancestors =>
    let self : List TRow :=
      if pyTruthy (nidOf node) && pyTruthy (labelOf node) then
        [nodeRow (nidOf node) (labelOf node) ancestors (scdOf node)]
      else []
    let anc2 : List PyVal :=
      if pyTruthy (labelOf node) then ancestors ++ [labelOf node] else ancestors
    match childrenOf node with
    | .list xs =>
      match walkListF fuel xs anc2 with
      | .ok rs => .ok (self ++ rs)
      | .error e => .error e
    | .dict _ => .ok self
    | .str _ => .ok self
    | .none => .ok self
    | _ => .error .notIterable

/-- The walker's loop `for c in children: if isinstance(c, dict): walk(...)`
over a list value. -/
def walkListF : Nat → PyList → List PyVal → Except PyErr (List TRow)
  | _, .nil, _ => .ok []
  | 0, .cons _ _, _ => .error .notIterable
  | fuel + 1, .cons x rest, anc =>
    match x with
    | .dict d =>
      match walkF fuel d anc with
      | .ok rs =>
        match walkListF fuel rest anc with
        | .ok more => .ok (rs ++ more)
        | .error e => .error e
      | .error e => .error e
    | _ => walkListF fuel rest anc

end

/-- The walker at its natural fuel. -/
def walk (node : PyDict) (ancestors : List PyVal) : Except PyErr (List TRow) :=
  walkF (pySizeD node + 1) node ancestors

/-- The top-level walker loop over a root list, at its natural fuel. -/
def walkTop (xs : PyList) : Except PyErr (List TRow) :=
  walkListF (pySizeL xs + 1) xs []

/-- Column labels of `pd.DataFrame(rows)`: union of the row keys in first
occurrence order. -/
def unionKeys (rows : List TRow) : List String :=
  rows.foldl
    (fun acc r => acc ++ (r.map Prod.fst).filter (fun k => !(acc.contains k)))
    []

/-- Modelled from the spec (RawTable): `pd.DataFrame(rows)` for a list of
key-value rows; the rows keep their own mappings and the column set is
their union.  (pandas would fill NaN for a key missing from a row; the
walker and the flat-list branch always supply uniform keys.) -/
def dfOfRows (rows : List TRow) : DataFrame :=
  ⟨unionKeys rows, rows⟩

/-- Does the parsed JSON trigger the flat-list branch
(`isinstance(data, list) and data and isinstance(data[0], dict)`)? -/
def startsWithDict : PyList → Bool
  | .cons (.dict _) _ => true
  | _ => false

/-- Rows of the flat-list branch: each element must be a mapping
(`pd.DataFrame` on a list mixing mappings and scalars raises). -/
def flatRows : PyList → Option (List TRow)
  | .nil => some []
  | .cons (.dict d) rest => (flatRows rest).map (fun rs => d.entries :: rs)
  | .cons _ _ => Option.none

/-- Embeds `parse_table(text, name)`: tab- or comma-delimited parsing for
the two tabular extensions with the detected header offset; otherwise JSON,
either directly as flat rows or flattened by the tree walker; otherwise the
`ValueError("Unsupported file format ...")`. -/
def parse_table (text : String) (name : String) : Except PyErr DataFrame :=
  let lower := pyLower name
  let header_idx := headerScan (pySplitlines text)
  if strEndsWith lower ".tsv" then .ok (read_csv text '\t' header_idx)
  else if strEndsWith lower ".csv" then .ok (read_csv text ',' header_idx)
  else
    match jsonLoads text with
    | Option.none => .error .unsupportedFormat
    | some data =>
      match data with
      | .dict d =>
        match walk d [] with
        | .ok rows => .ok (dfOfRows rows)
        | .error e => .error e
      | .list xs =>
        if startsWithDict xs then
          match flatRows xs with
          | some rows => .ok (dfOfRows rows)
          | Option.none => .error .mixedFlatList
        else
          match walkTop xs with
          | .ok rows => .ok (dfOfRows rows)
          | .error e => .error e
      | _ => .ok (dfOfRows [])

/-- A row of the canonical 2-level schema. -/
structure FlatCat where
  code : String
  label : String
deriving DecidableEq

/-- A row of the canonical hierarchical schema. -/
structure HierCat where
  id : String
  label : String
  path : List String
  scd : Bool
deriving DecidableEq

/-- Python `str(row.get(col) or "").strip()`. -/
def cellStr (r : TRow) (col : String) : String :=
  pyStrip (pyStr (pyOr (rowGet r col) (.str "")))

/-- Embeds `to_bool`. -/
def to_bool (v : PyVal) : Bool :=
  match v with
  | .bool b => b
  | .none => false
  | _ => ["true", "1", "yes", "y"].contains (pyLower (pyStrip (pyStr v)))

/-- The 2.x id-column alias set. -/
def idAliases2 : List String :=
  ["code", "id", "node id", "taxonomy id", "unique id"]

/-- The 3.x id-column alias set. -/
def idAliases3 : List String :=
  ["id", "node id", "taxonomy id", "unique id"]

/-- The label-column alias set. -/
def labelAliases : List String :=
  ["label", "name", "node", "node name"]

/-- The path-column alias set. -/
def pathAliases : List String :=
  ["path", "full path", "taxonomy path"]

/-- The scd-column alias set. -/
def scdAliases : List String :=
  ["scd", "sensitive", "is scd"]

/-- The per-row body of `normalize_2x`: trim the selected cells, skip the
row when either is empty. -/
def emit2 (id_col label_col : String) (r : TRow) : Option FlatCat :=
  let code := cellStr r id_col
  let label := cellStr r label_col
  if code == "" || label == "" then Option.none
  else some ⟨code, label⟩

/-- Embeds `normalize_2x`: select id and label columns through the
lower-cased column map, fail when either is missing, then emit the rows
whose trimmed id and label are both non-empty. -/
def normalize_2x (df : DataFrame) : Except PyErr (List FlatCat) :=
  let cols := colsMap df.cols
  let id_col := findAlias cols idAliases2
  let label_col := findAlias cols labelAliases
  if optTruthy id_col && optTruthy label_col then
    .ok (df.rows.filterMap (emit2 (id_col.getD "") (label_col.getD "")))
  else .error .inferFail

/-- The tier-column list of `normalize_3x`:
`[cols[c] for c in df.columns.str.lower() if c.startswith("tier ") or
c.startswith("tier")]` (the first disjunct is subsumed by the second; both
are kept as in the source).  The `cols[c]` lookup cannot fail because each
lower-cased column label is a key of the map. -/
def tierColsOf (headers : List String) (cols : List (String × String)) :
    List String :=
  ((headers.map pyLower).filter
      (fun c => strStartsWith c "tier " || strStartsWith c "tier")).map
    (fun c => ((List.find? (fun p => p.1 == c) cols).map Prod.snd).getD "")

/-- The delimiter class of the path splitter, `re.split(r">|/|\\|,", raw)`. -/
def isPathDelim (c : Char) : Bool :=
  c == '>' || c == '/' || c == '\\' || c == ','

/-- Split a raw path value on the delimiters, trim each piece, drop the
empty pieces. -/
def splitPathParts (raw : String) : List String :=
  ((splitStr isPathDelim raw).map pyStrip).filter (fun p => !(p == ""))

/-- Embeds the inner `row_path(r)` of `normalize_3x`: a present, non-blank
string under the path column is split into parts, used when any part
survives; otherwise the non-empty trimmed tier-column values in declared
order. -/
def row_path (path_col : Option String) (tiers : List String) (r : TRow) :
    List String :=
  let viaPath : Option (List String) :=
    if optTruthy path_col then
      match rowGet r (path_col.getD "") with
      | .str raw =>
        if !(pyStrip raw == "") then
          (let parts := splitPathParts raw
           if parts.isEmpty then Option.none else some parts)
        else Option.none
      | _ => Option.none
    else Option.none
  match viaPath with
  | some parts => parts
  | Option.none =>
    (tiers.map (fun t => cellStr r t)).filter (fun v => !(v == ""))

/-- The per-row body of `normalize_3x`: trim the selected cells, skip the
row when either is empty; derive the path (`row_path(row) or [label]`) and
the coerced scd flag. -/
def emit3 (id_col label_col : String) (path_col scd_col : Option String)
    (tiers : List String) (r : TRow) : Option HierCat :=
  let id0 := cellStr r id_col
  let label := cellStr r label_col
  if id0 == "" || label == "" then Option.none
  else
    let rp := row_path path_col tiers r
    let path := if rp.isEmpty then [label] else rp
    let scd :=
      if optTruthy scd_col then to_bool (rowGet r (scd_col.getD ""))
      else false
    some ⟨id0, label, path, scd⟩

/-- Embeds `normalize_3x`: select id, label, optional path and scd columns
and the tier columns; fail when id or label is missing; emit for each row
with non-empty trimmed id and label the path (`row_path(row) or [label]`)
and the coerced scd flag. -/
def normalize_3x (df : DataFrame) : Except PyErr (List HierCat) :=
  let cols := colsMap df.cols
  let id_col := findAlias cols idAliases3
  let label_col := findAlias cols labelAliases
  let path_col := findAlias cols pathAliases
  let scd_col := findAlias cols scdAliases
  let tiers := tierColsOf df.cols cols
  if optTruthy id_col && optTruthy label_col then
    .ok (df.rows.filterMap
      (emit3 (id_col.getD "") (label_col.getD "") path_col scd_col tiers))
  else .error .inferFail

/-- The observable state the driver touches: the collaborator transport
(directory listing already taken, plus a download capability) — the
environment one `main()` run executes against. -/
structure Env where
  files : List FileMeta
  download : String → Except PyErr String

/-- An output artifact written by the driver: a verbatim raw source file,
or one of the two normalized catalogs. -/
inductive Artifact where
  | raw (name : String) : Artifact
  | norm3 : Artifact
  | norm2 : Artifact
deriving DecidableEq

/-- Embeds `main()`: locate the 3.x and 2.x files, return 1 when 3.x is
absent; download, persist and parse 3.x, normalizing inside a
`try/except`; then the same for 2.x when present.  An exception escaping
`main` (a failed download, or `parse_table` raising on either branch) ends
the process with completion code 1; only the normalization step is guarded.
The result is the completion code paired with the artifacts written, in
order. -/
def mainRun (env : Env) : Nat × List Artifact :=
  match pick_latest env.files 3 with
  | Option.none => (1, [])
  | some f3 =>
    match env.download f3.download_url with
    | .error _ => (1, [])
    | .ok txt3 =>
      let a1 : List Artifact := [.raw f3.name]
      match parse_table txt3 f3.name with
      | .error _ => (1, a1)
      | .ok df3 =>
        let a2 := a1 ++ (match normalize_3x df3 with
          | .ok _ => [Artifact.norm3]
          | .error _ => [])
        match pick_latest env.files 2 with
        | Option.none => (0, a2)
        | some f2 =>
          match env.download f2.download_url with
          | .error _ => (1, a2)
          | .ok txt2 =>
            let a3 := a2 ++ [Artifact.raw f2.name]
            match parse_table txt2 f2.name with
            | .error _ => (1, a3)
            | .ok df2 =>
              (0, a3 ++ (match normalize_2x df2 with
                | .ok _ => [Artifact.norm2]
                | .error _ => []))

/-! ## Version extractor -/

lemma searchVer_isSome (cs : List Char) :
    (searchVer cs).isSome = true ↔
      ∃ i, (matchVerAt (List.drop i cs)).isSome = true := by
  induction cs with
  | nil =>
    constructor
    · intro h
      exact ⟨0, h⟩
    · rintro ⟨i, h⟩
      simpa [searchVer, List.drop_nil] using h
  | cons c rest ih =>
    cases h : matchVerAt (c :: rest) with
    | some v =>
      constructor
      · intro _
        exact ⟨0, by simp [h]⟩
      · intro _
        simp [searchVer, h]
    | none =>
      have hs : searchVer (c :: rest) = searchVer rest := by
        simp [searchVer, h]
      rw [hs, ih]
      constructor
      · rintro ⟨i, hi⟩
        exact ⟨i + 1, by simpa using hi⟩
      · rintro ⟨i, hi⟩
        cases i with
        | zero =>
          simp only [List.drop_zero] at hi
          rw [h] at hi
          simp at hi
        | succ j =>
          exact ⟨j, by simpa using hi⟩

lemma matchCI_some : ∀ pat cs rest : List Char, matchCI pat cs = some rest →
    ∃ taken, cs = taken ++ rest ∧
      taken.map Char.toLower = pat.map Char.toLower := by
  intro pat
  induction pat with
  | nil =>
    intro cs rest h
    rw [matchCI] at h
    exact ⟨[], by simpa using Option.some.inj h, rfl⟩
  | cons p ps ih =>
    intro cs rest h
    cases cs with
    | nil => exact absurd h (by simp [matchCI])
    | cons c cs2 =>
      rw [matchCI] at h
      by_cases hc : (Char.toLower c == Char.toLower p) = true
      · rw [if_pos hc] at h
        rcases ih cs2 rest h with ⟨taken, htk, hmap⟩
        exact ⟨c :: taken, by rw [htk]; rfl,
          by simp [hmap, beq_iff_eq.mp hc]⟩
      · rw [if_neg hc] at h
        exact absurd h (by simp)

lemma matchCI_mk : ∀ pat taken rest : List Char,
    taken.map Char.toLower = pat.map Char.toLower →
    matchCI pat (taken ++ rest) = some rest := by
  intro pat
  induction pat with
  | nil =>
    intro taken rest h
    have ht : taken = [] := by simpa using h
    rw [ht]
    rfl
  | cons p ps ih =>
    intro taken rest h
    cases taken with
    | nil => exact absurd h (by simp)
    | cons t ts =>
      simp only [List.map] at h
      obtain ⟨h1, h2⟩ := List.cons.inj h
      rw [List.cons_append, matchCI, if_pos (by rw [h1]; exact beq_self_eq_true _)]
      exact ih ts rest h2

lemma ws_cases (c : Char) (h : isPyWs c = true) :
    c = ' ' ∨ c = '\t' ∨ c = '\n' ∨ c = '\r' ∨ c = '\x0b' ∨ c = '\x0c' := by
  rw [isPyWs] at h
  simpa [or_assoc] using h

lemma ws_toLower (c : Char) (h : isPyWs c = true) : Char.toLower c = c := by
  rcases ws_cases c h with rfl | rfl | rfl | rfl | rfl | rfl <;> decide

lemma ws_not_digit (c : Char) (h : isPyWs c = true) : c.isDigit = false := by
  rcases ws_cases c h with rfl | rfl | rfl | rfl | rfl | rfl <;> decide

lemma not_ws_of_digit (c : Char) (h : c.isDigit = true) : isPyWs c = false := by
  cases hw : isPyWs c with
  | false => rfl
  | true => rw [ws_not_digit c hw] at h; exact absurd h (by simp)

lemma not_ws_of_toLower_t (c : Char) (h : Char.toLower c = 't') :
    isPyWs c = false := by
  cases hw : isPyWs c with
  | false => rfl
  | true =>
    rw [ws_toLower c hw] at h
    rw [h] at hw
    exact absurd hw (by decide)

lemma dropWhile_ws_append (p : Char → Bool) :
    ∀ w l : List Char, (∀ c ∈ w, p c = true) →
      List.dropWhile p (w ++ l) = List.dropWhile p l := by
  intro w
  induction w with
  | nil => intro l _; rfl
  | cons c cs ih =>
    intro l hw
    rw [List.cons_append, List.dropWhile_cons,
      if_pos (hw c (List.mem_cons_self _ _))]
    exact ih l fun x hx => hw x (List.mem_cons_of_mem _ hx)

lemma dropWhile_not_head (p : Char → Bool) (c : Char) (l : List Char)
    (h : p c = false) : List.dropWhile p (c :: l) = c :: l := by
  rw [List.dropWhile_cons, if_neg (by simp [h])]

lemma takeWhile_run (p : Char → Bool) :
    ∀ d : List Char, ∀ x : Char, ∀ l : List Char,
      (∀ c ∈ d, p c = true) → p x = false →
      List.takeWhile p (d ++ x :: l) = d ∧
        List.dropWhile p (d ++ x :: l) = x :: l := by
  intro d
  induction d with
  | nil =>
    intro x l _ hx
    constructor
    · rw [List.nil_append, List.takeWhile_cons, if_neg (by simp [hx])]
    · rw [List.nil_append, List.dropWhile_cons, if_neg (by simp [hx])]
  | cons c cs ih =>
    intro x l hd hx
    have hc : p c = true := hd c (List.mem_cons_self _ _)
    have htl := ih x l (fun y hy => hd y (List.mem_cons_of_mem _ hy)) hx
    constructor
    · rw [List.cons_append, List.takeWhile_cons, if_pos hc, htl.1]
    · rw [List.cons_append, List.dropWhile_cons, if_pos hc, htl.2]

lemma matchVerAt_iff (cs : List Char) :
    (matchVerAt cs).isSome = true ↔ VersionPhraseAt cs := by
  constructor
  · intro h
    rw [matchVerAt] at h
    cases h1 : matchCI "content".toList cs with
    | none =>
      simp only [h1] at h
      exact absurd h (by simp)
    | some r1 =>
      cases h2 : matchCI "taxonomy".toList (r1.dropWhile isPyWs) with
      | none =>
        simp only [h1, h2] at h
        exact absurd h (by simp)
      | some r2 =>
        simp only [h1, h2] at h
        by_cases hmaj :
            (((r2.dropWhile isPyWs).takeWhile Char.isDigit).isEmpty) = true
        · rw [if_pos hmaj] at h
          exact absurd h (by simp)
        · rw [if_neg hmaj] at h
          cases h3 : (r2.dropWhile isPyWs).dropWhile Char.isDigit with
          | nil =>
            simp only [h3] at h
            exact absurd h (by simp)
          | cons dot r3 =>
            simp only [h3] at h
            split at h
            · rename_i r3x heq
              obtain ⟨hdot, hr3⟩ := List.cons.inj heq
              subst hdot
              subst hr3
              by_cases hmin : ((r3.takeWhile Char.isDigit).isEmpty) = true
              · rw [if_pos hmin] at h
                exact absurd h (by simp)
              · rcases matchCI_some _ _ _ h1 with ⟨c1, hcs, hc1⟩
                rcases matchCI_some _ _ _ h2 with ⟨c2, hr1b, hc2⟩
                obtain ⟨w1, hw1m, e1⟩ :
                    ∃ w, (∀ c ∈ w, isPyWs c = true) ∧
                      r1 = w ++ List.dropWhile isPyWs r1 :=
                  ⟨r1.takeWhile isPyWs,
                    fun c hc => List.mem_takeWhile_imp hc,
                    (List.takeWhile_append_dropWhile _ _).symm⟩
                obtain ⟨w2, hw2m, e2⟩ :
                    ∃ w, (∀ c ∈ w, isPyWs c = true) ∧
                      r2 = w ++ List.dropWhile isPyWs r2 :=
                  ⟨r2.takeWhile isPyWs,
                    fun c hc => List.mem_takeWhile_imp hc,
                    (List.takeWhile_append_dropWhile _ _).symm⟩
                obtain ⟨maj, hmajm, hmajne, e3⟩ :
                    ∃ m, (∀ c ∈ m, Char.isDigit c = true) ∧ m ≠ [] ∧
                      List.dropWhile isPyWs r2 = m ++ '.' :: r3 := by
                  refine ⟨(List.dropWhile isPyWs r2).takeWhile Char.isDigit,
                    fun c hc => List.mem_takeWhile_imp hc, ?_, ?_⟩
                  · intro habs
                    rw [habs] at hmaj
                    exact hmaj rfl
                  · rw [← h3]
                    exact (List.takeWhile_append_dropWhile _ _).symm
                obtain ⟨minr, restt, hminm, hminne, e4⟩ :
                    ∃ m r, (∀ c ∈ m, Char.isDigit c = true) ∧ m ≠ [] ∧
                      r3 = m ++ r := by
                  refine ⟨r3.takeWhile Char.isDigit,
                    r3.dropWhile Char.isDigit,
                    fun c hc => List.mem_takeWhile_imp hc, ?_,
                    (List.takeWhile_append_dropWhile _ _).symm⟩
                  intro habs
                  rw [habs] at hmin
                  exact hmin rfl
                refine ⟨c1, w1, c2, w2, maj, minr, restt,
                  ?_, hc1.trans (by decide), hc2.trans (by decide),
                  hw1m, hw2m, hmajne, hmajm, hminne, hminm⟩
                simp only [List.append_assoc]
                rw [hcs, e1, hr1b, e2, e3, e4]
                simp
            · exact absurd h (by simp)
  · rintro ⟨c1, w1, c2, w2, d1, d2, rest, rfl, h1, h2, hw1, hw2,
      hd1ne, hd1, hd2ne, hd2⟩
    have hc1 : c1.map Char.toLower = ("content".toList).map Char.toLower := by
      rw [h1]; decide
    have hc2 : c2.map Char.toLower = ("taxonomy".toList).map Char.toLower := by
      rw [h2]; decide
    obtain ⟨t2, c2t, rfl⟩ : ∃ h t, c2 = h :: t := by
      cases c2 with
      | nil => exact absurd h2 (by decide)
      | cons x xs => exact ⟨x, xs, rfl⟩
    have ht2 : Char.toLower t2 = 't' := by
      have := congrArg (fun l => l.headD 'z') h2
      simpa using this
    obtain ⟨e1, d1t, rfl⟩ : ∃ h t, d1 = h :: t := by
      cases d1 with
      | nil => exact absurd rfl hd1ne
      | cons x xs => exact ⟨x, xs, rfl⟩
    obtain ⟨e2, d2t, rfl⟩ : ∃ h t, d2 = h :: t := by
      cases d2 with
      | nil => exact absurd rfl hd2ne
      | cons x xs => exact ⟨x, xs, rfl⟩
    have hm1 : matchCI "content".toList
        (c1 ++ (w1 ++ ((t2 :: c2t) ++ (w2 ++ ((e1 :: d1t) ++
          '.' :: (e2 :: d2t) ++ rest))))) =
        some (w1 ++ ((t2 :: c2t) ++ (w2 ++ ((e1 :: d1t) ++
          '.' :: (e2 :: d2t) ++ rest)))) :=
      matchCI_mk _ _ _ hc1
    have hdw1 : List.dropWhile isPyWs
        (w1 ++ ((t2 :: c2t) ++ (w2 ++ ((e1 :: d1t) ++
          '.' :: (e2 :: d2t) ++ rest)))) =
        (t2 :: c2t) ++ (w2 ++ ((e1 :: d1t) ++
          '.' :: (e2 :: d2t) ++ rest)) := by
      rw [dropWhile_ws_append isPyWs w1 _ hw1, List.cons_append,
        dropWhile_not_head isPyWs t2 _ (not_ws_of_toLower_t t2 ht2)]
    have hm2 : matchCI "taxonomy".toList
        ((t2 :: c2t) ++ (w2 ++ ((e1 :: d1t) ++
          '.' :: (e2 :: d2t) ++ rest))) =
        some (w2 ++ ((e1 :: d1t) ++ '.' :: (e2 :: d2t) ++ rest)) :=
      matchCI_mk _ _ _ hc2
    have he1d : e1.isDigit = true := hd1 e1 (List.mem_cons_self _ _)
    have hdw2 : List.dropWhile isPyWs
        (w2 ++ ((e1 :: d1t) ++ '.' :: (e2 :: d2t) ++ rest)) =
        (e1 :: d1t) ++ '.' :: (e2 :: d2t) ++ rest := by
      rw [dropWhile_ws_append isPyWs w2 _ hw2]
      rw [List.append_assoc, List.cons_append]
      exact dropWhile_not_head isPyWs e1 _ (not_ws_of_digit e1 he1d)
    have hrun := takeWhile_run Char.isDigit (e1 :: d1t) '.'
      ((e2 :: d2t) ++ rest) hd1 (by decide)
    have htw2 : List.takeWhile Char.isDigit ((e2 :: d2t) ++ rest) =
        e2 :: List.takeWhile Char.isDigit (d2t ++ rest) := by
      rw [List.cons_append, List.takeWhile_cons,
        if_pos (hd2 e2 (List.mem_cons_self _ _))]
    have hrun1 := hrun.1
    have hrun2 := hrun.2
    rw [matchVerAt]
    simp only [List.append_assoc, List.cons_append] at hm1
    simp only [List.append_assoc, List.cons_append] at hdw1
    simp only [List.append_assoc, List.cons_append] at hm2
    simp only [List.append_assoc, List.cons_append] at hdw2
    simp only [List.append_assoc, List.cons_append] at htw2
    simp only [List.append_assoc, List.cons_append] at hrun1
    simp only [List.append_assoc, List.cons_append] at hrun2
    simp only [List.append_assoc, List.cons_append]
    simp only [hm1, hdw1, hm2, hdw2, hrun1, hrun2]
    rw [if_neg (by simp)]
    simp only [htw2]
    rw [if_neg (by simp)]
    simp

lemma exists_drop_iff (P : List Char → Prop) (cs : List Char) :
    (∃ i, P (List.drop i cs)) ↔ ∃ pre suf, cs = pre ++ suf ∧ P suf := by
  constructor
  · rintro ⟨i, h⟩
    exact ⟨cs.take i, cs.drop i, (List.take_append_drop i cs).symm, h⟩
  · rintro ⟨pre, suf, rfl, h⟩
    exact ⟨pre.length, by simpa [List.drop_left] using h⟩

/-- C6: `parse_version_from_name` is a pure total Lean function (hence has
no side effects and never fails); it succeeds exactly when the name
contains, at some position, the word "content" in any letter case, then
optional whitespace, the word "taxonomy" in any letter case, optional
whitespace, one or more digits, a dot, and one or more digits — the
declarative reading of `Content\s*Taxonomy\s*(\d+)\.(\d+)` under `re.I`;
and on the spec's examples it returns `(3, 1)` for
`"Content Taxonomy 3.1.tsv"` and nothing for `"readme.md"`. -/
theorem C6_parse_version_from_name_spec :
    (∀ name : String, (parse_version_from_name name).isSome = true ↔
        ContainsVersionPhrase name.toList)
    ∧ parse_version_from_name "Content Taxonomy 3.1.tsv" = some (3, 1)
    ∧ parse_version_from_name "CONTENT   taxonomy 10.25" = some (10, 25)
    ∧ parse_version_from_name "readme.md" = Option.none :=
  ⟨fun name =>
    (searchVer_isSome name.toList).trans
      ((exists_congr fun i => matchVerAt_iff (List.drop i name.toList)).trans
        (exists_drop_iff VersionPhraseAt name.toList)),
    rfl, rfl, rfl⟩

/-! ## Catalog locator -/

lemma firstMax_le (c : Nat × FileMeta) (cs : List (Nat × FileMeta)) :
    ∀ x ∈ c :: cs, x.1 ≤ (firstMax c cs).1 := by
  induction cs generalizing c with
  | nil =>
    intro x hx
    rcases List.mem_singleton.mp hx with rfl
    exact Nat.le_refl _
  | cons y ys ih =>
    intro x hx
    have step : firstMax c (y :: ys) = firstMax (if y.1 > c.1 then y else c) ys :=
      rfl
    rcases List.mem_cons.mp hx with rfl | hx2
    · rw [step]
      refine Nat.le_trans ?_ (ih _ _ (List.mem_cons_self _ _))
      by_cases h : y.1 > x.1
      · simp [h]
        omega
      · simp [h]
    · rcases List.mem_cons.mp hx2 with rfl | hx3
      · rw [step]
        refine Nat.le_trans ?_ (ih _ _ (List.mem_cons_self _ _))
        by_cases h : x.1 > c.1
        · simp [h]
        · simp [h]
          omega
      · rw [step]
        exact ih _ _ (List.mem_cons_of_mem _ hx3)

lemma firstMax_find (cs : List (Nat × FileMeta)) :
    ∀ c, List.find? (fun x => x.1 == (firstMax c cs).1) (c :: cs) =
      some (firstMax c cs) := by
  induction cs with
  | nil =>
    intro c
    simp [firstMax, List.find?]
  | cons y ys ih =>
    intro c
    show List.find? (fun x => x.1 == (firstMax (if y.1 > c.1 then y else c) ys).1)
        (c :: y :: ys) = some (firstMax (if y.1 > c.1 then y else c) ys)
    by_cases h : y.1 > c.1
    · rw [if_pos h]
      have hyr : y.1 ≤ (firstMax y ys).1 :=
        firstMax_le y ys y (List.mem_cons_self _ _)
      have hcr : ¬((fun x : Nat × FileMeta => x.1 == (firstMax y ys).1) c = true) := by
        simp
        omega
      rw [List.find?_cons_of_neg (p := fun x : Nat × FileMeta => x.1 == (firstMax y ys).1) _ hcr]
      exact ih y
    · rw [if_neg h]
      have hcr : c.1 ≤ (firstMax c ys).1 :=
        firstMax_le c ys c (List.mem_cons_self _ _)
      have ihc := ih c
      by_cases hq : c.1 = (firstMax c ys).1
      · have hceq : c = firstMax c ys := by
          have h1 : List.find? (fun x => x.1 == (firstMax c ys).1) (c :: ys) =
              some c :=
            List.find?_cons_of_pos (p := fun x : Nat × FileMeta => x.1 == (firstMax c ys).1) _
              (by simp [hq])
          rw [ihc] at h1
          exact (Option.some.inj h1).symm
        rw [List.find?_cons_of_pos (p := fun x : Nat × FileMeta => x.1 == (firstMax c ys).1) _
          (by simp [hq])]
        rw [← hceq]
      · have hlt : c.1 < (firstMax c ys).1 := Nat.lt_of_le_of_ne hcr hq
        have hy : y.1 ≤ c.1 := Nat.le_of_not_lt h
        rw [List.find?_cons_of_neg (p := fun x : Nat × FileMeta => x.1 == (firstMax c ys).1) _
            (by simp; omega),
          List.find?_cons_of_neg (p := fun x : Nat × FileMeta => x.1 == (firstMax c ys).1) _
            (by simp; omega)]
        rw [List.find?_cons_of_neg (p := fun x : Nat × FileMeta => x.1 == (firstMax c ys).1) _
          (by simp; omega)] at ihc
        exact ihc

lemma cand_of_mem_filterMap {files : List FileMeta} {major : Nat}
    {n : Nat} {f : FileMeta}
    (h : (n, f) ∈ files.filterMap (fun f => (candMinor major f).map (·, f))) :
    f ∈ files ∧ candMinor major f = some n := by
  rcases List.mem_filterMap.mp h with ⟨a, ha, hmap⟩
  rcases Option.map_eq_some'.mp hmap with ⟨k, hk, hpair⟩
  cases hpair
  exact ⟨ha, hk⟩

lemma mem_filterMap_of_cand {files : List FileMeta} {major : Nat}
    {n : Nat} {f : FileMeta} (hf : f ∈ files) (h : candMinor major f = some n) :
    (n, f) ∈ files.filterMap (fun f => (candMinor major f).map (·, f)) :=
  List.mem_filterMap.mpr ⟨f, hf, by rw [h]; rfl⟩

lemma find?_filterMap_pair (files : List FileMeta) (major m : Nat) :
    ((files.filterMap (fun f => (candMinor major f).map (·, f))).find?
        (fun x => x.1 == m)).map Prod.snd =
      files.find? (fun f => candMinor major f == some m) := by
  induction files with
  | nil => rfl
  | cons f fs ih =>
    cases h : candMinor major f with
    | none =>
      have h1 : (f :: fs).filterMap (fun f => (candMinor major f).map (·, f)) =
          fs.filterMap (fun f => (candMinor major f).map (·, f)) := by
        rw [List.filterMap_cons, h]
        rfl
      have h2 : (fun f => candMinor major f == some m) f = false := by
        simp [h]
      rw [h1, List.find?_cons_of_neg _ (by simp [h2]), ih]
    | some n =>
      have h1 : (f :: fs).filterMap (fun f => (candMinor major f).map (·, f)) =
          (n, f) :: fs.filterMap (fun f => (candMinor major f).map (·, f)) := by
        rw [List.filterMap_cons, h]
        rfl
      rw [h1]
      by_cases hm : n = m
      · rw [List.find?_cons_of_pos (p := fun x : Nat × FileMeta => x.1 == m) _
            (by simp [hm]),
          List.find?_cons_of_pos _ (by simp [h, hm])]
        rfl
      · rw [List.find?_cons_of_neg (p := fun x : Nat × FileMeta => x.1 == m) _
            (by simp [hm]),
          List.find?_cons_of_neg _ (by simp [h, hm]), ih]

/-- C5: for every file list and requested major, `pick_latest` returns
nothing exactly when no file's name yields a version with that major; and
when it returns a file `g`, the minor `m` extracted from `g` is maximal
among all candidates with that major, and `g` is the first file in the
supplied order achieving it (`List.find?` scans in order) — so ties on the
maximal minor deterministically select the earliest candidate.  On the
spec's example, versions (3,0), (3,1), (2,2) give the (3,1) file for major
3 and nothing for major 5. -/
theorem C5_pick_latest_spec :
    (∀ (files : List FileMeta) (major : Nat),
      (pick_latest files major = Option.none ↔
        ∀ f ∈ files, candMinor major f = Option.none)
      ∧ (∀ g, pick_latest files major = some g →
          ∃ m, candMinor major g = some m
            ∧ (∀ f ∈ files, ∀ n, candMinor major f = some n → n ≤ m)
            ∧ List.find? (fun f => candMinor major f == some m) files = some g))
    ∧ (pick_latest
        [⟨"Content Taxonomy 3.0.tsv", "u0"⟩, ⟨"Content Taxonomy 3.1.tsv", "u1"⟩,
         ⟨"Content Taxonomy 2.2.tsv", "u2"⟩] 3).map FileMeta.name =
      some "Content Taxonomy 3.1.tsv"
    ∧ pick_latest
        [⟨"Content Taxonomy 3.0.tsv", "u0"⟩, ⟨"Content Taxonomy 3.1.tsv", "u1"⟩,
         ⟨"Content Taxonomy 2.2.tsv", "u2"⟩] 5 = Option.none := by
  refine ⟨fun files major => ⟨?_, ?_⟩, rfl, rfl⟩
  · unfold pick_latest
    cases hc : files.filterMap (fun f => (candMinor major f).map (·, f)) with
    | nil =>
      simp only [true_iff]
      intro f hf
      by_contra hne
      rcases Option.ne_none_iff_exists'.mp hne with ⟨n, hn⟩
      have := mem_filterMap_of_cand hf hn
      rw [hc] at this
      exact (List.not_mem_nil _ this)
    | cons c cs =>
      constructor
      · intro h
        exact absurd h (by simp)
      · intro hall
        have hmem : c ∈ c :: cs := List.mem_cons_self _ _
        rw [← hc] at hmem
        have h2 := cand_of_mem_filterMap (n := c.1) (f := c.2)
          (by simpa using hmem)
        rw [hall c.2 h2.1] at h2
        exact absurd h2.2 (by simp)
  · intro g hg
    unfold pick_latest at hg
    rcases hc : files.filterMap (fun f => (candMinor major f).map (·, f)) with
      _ | ⟨c, cs⟩
    · rw [hc] at hg
      exact absurd hg (by simp)
    · rw [hc] at hg
      simp only at hg
      have hg2 : (firstMax c cs).2 = g := Option.some.inj hg
      refine ⟨(firstMax c cs).1, ?_, ?_, ?_⟩
      · have hmem : firstMax c cs ∈ c :: cs :=
          List.mem_of_find?_eq_some (firstMax_find cs c)
        rw [← hc] at hmem
        have h2 := (cand_of_mem_filterMap (n := (firstMax c cs).1)
          (f := (firstMax c cs).2) (by simpa using hmem)).2
        rw [hg2] at h2
        exact h2
      · intro f hf n hn
        have hmem := mem_filterMap_of_cand hf hn
        rw [hc] at hmem
        exact firstMax_le c cs (n, f) hmem
      · have := find?_filterMap_pair files major (firstMax c cs).1
        rw [hc, firstMax_find cs c] at this
        rw [← this, Option.map_some', hg2]

/-! ## Header detection (tabular branch of the parser) -/

lemma headerScanAux_eq (ls : List String) :
    ∀ i, headerScanAux ls i =
      match ls.findIdx? qualifiesHeader with
      | some j => i + j
      | Option.none => 0 := by
  induction ls with
  | nil =>
    intro i
    rfl
  | cons l ls ih =>
    intro i
    by_cases h : qualifiesHeader l
    · simp [headerScanAux, h, List.findIdx?_cons]
    · rw [List.findIdx?_cons]
      simp only [headerScanAux, h, if_false, Bool.false_eq_true]
      cases hf : ls.findIdx? qualifiesHeader with
      | some j =>
        rw [ih (i + 1)]
        simp [hf]
        ring
      | none =>
        rw [ih (i + 1)]
        simp [hf]

lemma headerScan_eq (lines : List String) :
    headerScan lines = ((lines.take 10).findIdx? qualifiesHeader).getD 0 := by
  rw [headerScan, headerScanAux_eq]
  cases hf : (lines.take 10).findIdx? qualifiesHeader with
  | some j => simp
  | none => rfl

/-- C7: for a tabular extension, the header index `parse_table` uses is the
index of the first line, among the first 10, that lower-cased contains both
`"unique id"` and `"name"` (`qualifiesHeader`), defaulting to 0; the lines
before it are discarded and the rest are parsed as delimited rows keyed by
the trimmed header tokens (`read_csv`).  The example shows a tab-separated
text whose line 2 is the first qualifying line: lines 0 and 1 are
discarded, line 2 becomes the header and line 3 the single data row. -/
theorem C7_parse_table_header_detection :
    (∀ text name : String, strEndsWith (pyLower name) ".tsv" = true →
      parse_table text name =
        .ok (read_csv text '\t'
          ((((pySplitlines text).take 10).findIdx? qualifiesHeader).getD 0)))
    ∧ (∀ text name : String, strEndsWith (pyLower name) ".tsv" = false →
        strEndsWith (pyLower name) ".csv" = true →
        parse_table text name =
          .ok (read_csv text ','
            ((((pySplitlines text).take 10).findIdx? qualifiesHeader).getD 0)))
    ∧ (∀ line : String, qualifiesHeader line =
        (strContains (pyLower line) "unique id" &&
          strContains (pyLower line) "name"))
    ∧ parse_table "junk\nalso junk\nUnique ID\tName\n1\tArts" "x.TSV" =
        .ok ⟨["Unique ID", "Name"],
          [[("Unique ID", .str "1"), ("Name", .str "Arts")]]⟩ := by
  refine ⟨?_, ?_, fun _ => rfl, rfl⟩
  · intro text name h
    rw [parse_table, headerScan_eq]
    simp only [h, if_true]
  · intro text name h1 h2
    rw [parse_table, headerScan_eq]
    simp only [h1, h2, if_true, if_false, Bool.false_eq_true]

/-! ## scd coercion -/

/-- C10: the scd flag of every emitted row follows the coercion rule — with
an scd column, `to_bool` of the raw cell, which is `true` exactly when the
trimmed, lower-cased rendering of the value is one of
`true`, `1`, `yes`, `y` (so also for Python `True`, and `false` for empty,
`None` and missing cells); with no scd column, `false` unconditionally.
The closing conjuncts run the spec's example values through a table with an
scd column (values `TRUE`, `1`, `Yes`, `y`, ` `, `no`, `0` and a missing
cell) and through a table without one. -/
theorem C10_scd_coercion :
    (∀ v : PyVal, to_bool v =
      ["true", "1", "yes", "y"].contains (pyLower (pyStrip (pyStr v))))
    ∧ (∀ id_col label_col path_col tiers r cat,
        emit3 id_col label_col path_col Option.none tiers r = some cat →
          cat.scd = false)
    ∧ (∀ id_col label_col path_col sc tiers r cat, !(sc == "") →
        emit3 id_col label_col path_col (some sc) tiers r = some cat →
          cat.scd = to_bool (rowGet r sc))
    ∧ (normalize_3x ⟨["ID", "Name", "SCD"],
        [[("ID", .str "1"), ("Name", .str "a"), ("SCD", .str "TRUE")],
         [("ID", .str "2"), ("Name", .str "b"), ("SCD", .str "1")],
         [("ID", .str "3"), ("Name", .str "c"), ("SCD", .str "Yes")],
         [("ID", .str "4"), ("Name", .str "d"), ("SCD", .str "y")],
         [("ID", .str "5"), ("Name", .str "e"), ("SCD", .str "")],
         [("ID", .str "6"), ("Name", .str "f"), ("SCD", .str "no")],
         [("ID", .str "7"), ("Name", .str "g"), ("SCD", .str "0")],
         [("ID", .str "8"), ("Name", .str "h")]]⟩).map (List.map HierCat.scd) =
      .ok [true, true, true, true, false, false, false, false]
    ∧ (normalize_3x ⟨["ID", "Name"],
        [[("ID", .str "1"), ("Name", .str "a")]]⟩).map (List.map HierCat.scd) =
      .ok [false] := by
  refine ⟨?_, ?_, ?_, rfl, rfl⟩
  · intro v
    cases v with
    | bool b => cases b <;> rfl
    | _ => rfl
  · intro id_col label_col path_col tiers r cat h
    simp only [emit3] at h
    by_cases hc : (cellStr r id_col == "" || cellStr r label_col == "") = true
    · rw [if_pos hc] at h
      exact absurd h (by simp)
    · rw [if_neg hc] at h
      cases Option.some.inj h
      simp [optTruthy]
  · intro id_col label_col path_col sc tiers r cat hsc h
    simp only [emit3] at h
    by_cases hc : (cellStr r id_col == "" || cellStr r label_col == "") = true
    · rw [if_pos hc] at h
      exact absurd h (by simp)
    · rw [if_neg hc] at h
      cases Option.some.inj h
      have hopt : optTruthy (some sc) = true := by
        simpa [optTruthy] using hsc
      simp [hopt]

/-! ## Path derivation -/

lemma pyStrip_eq_empty {s : String} :
    pyStrip s = "" ↔ ∀ c ∈ s.toList, isPyWs c = true := by
  unfold pyStrip
  constructor
  · intro h c hc
    have hL : ((s.toList.dropWhile isPyWs).reverse.dropWhile isPyWs).reverse
        = [] := by
      have h2 := congrArg String.toList h
      simpa using h2
    rw [List.reverse_eq_nil_iff, List.dropWhile_eq_nil_iff] at hL
    have hsplit := List.takeWhile_append_dropWhile (p := isPyWs) (l := s.toList)
    rw [← hsplit] at hc
    rcases List.mem_append.mp hc with h1 | h2
    · exact List.mem_takeWhile_imp h1
    · exact hL c (List.mem_reverse.mpr h2)
  · intro h
    have h1 : s.toList.dropWhile isPyWs = [] :=
      List.dropWhile_eq_nil_iff.mpr h
    rw [h1]
    rfl

lemma splitChars_mem_subset (p : Char → Bool) :
    ∀ (cs cur : List Char) (t : String), t ∈ splitChars p cs cur →
      ∀ c ∈ t.toList, c ∈ cur ∨ c ∈ cs := by
  intro cs
  induction cs with
  | nil =>
    intro cur t ht c hc
    simp only [splitChars, List.mem_singleton] at ht
    subst ht
    left
    have : c ∈ cur.reverse := by simpa using hc
    exact List.mem_reverse.mp this
  | cons d rest ih =>
    intro cur t ht c hc
    by_cases hd : p d
    · simp only [splitChars, hd, if_true, List.mem_cons] at ht
      rcases ht with rfl | ht2
      · left
        have : c ∈ cur.reverse := by simpa using hc
        exact List.mem_reverse.mp this
      · rcases ih [] t ht2 c hc with h1 | h2
        · exact absurd h1 (List.not_mem_nil c)
        · right
          exact List.mem_cons_of_mem _ h2
    · simp only [splitChars, hd, Bool.false_eq_true, if_false] at ht
      rcases ih (d :: cur) t ht c hc with h1 | h2
      · rcases List.mem_cons.mp h1 with rfl | h3
        · right
          exact List.mem_cons_self _ _
        · left
          exact h3
      · right
        exact List.mem_cons_of_mem _ h2

lemma splitPathParts_blank {raw : String} (h : pyStrip raw = "") :
    splitPathParts raw = [] := by
  unfold splitPathParts
  rw [List.filter_eq_nil_iff]
  intro piece hmem
  rcases List.mem_map.mp hmem with ⟨t, ht, rfl⟩
  have hall := pyStrip_eq_empty.mp h
  have hws : ∀ c ∈ t.toList, isPyWs c = true := by
    intro c hc
    rcases splitChars_mem_subset isPathDelim raw.toList [] t ht c hc with h1 | h2
    · exact absurd h1 (List.not_mem_nil c)
    · exact hall c h2
  have hblank : pyStrip t = "" := pyStrip_eq_empty.mpr hws
  simp [hblank]

/-- The path-derivation order exactly as the claim words it: a present,
non-empty string under the path column is split, trimmed and cleaned and
used when non-empty; otherwise the non-empty trimmed tier values in their
declared order; otherwise `[label]`. -/
def claimPath (path_col : Option String) (tiers : List String)
    (label : String) (r : TRow) : List String :=
  let fromPath : List String :=
    match path_col with
    | some pc =>
      (match rowGet r pc with
       | .str raw => if raw == "" then [] else splitPathParts raw
       | _ => [])
    | Option.none => []
  if !fromPath.isEmpty then fromPath
  else
    let tierVals := (tiers.map (cellStr r)).filter (fun v => !(v == ""))
    if !tierVals.isEmpty then tierVals else [label]

lemma claimPath_ne_nil (path_col : Option String) (tiers : List String)
    (label : String) (r : TRow) : claimPath path_col tiers label r ≠ [] := by
  unfold claimPath
  by_cases h1 : (!(match path_col with
      | some pc =>
        (match rowGet r pc with
         | .str raw => if raw == "" then [] else splitPathParts raw
         | _ => [])
      | Option.none => ([] : List String)).isEmpty) = true
  · rw [if_pos h1]
    simpa using h1
  · rw [if_neg h1]
    by_cases h2 : (!((tiers.map (cellStr r)).filter
        (fun v => !(v == ""))).isEmpty) = true
    · rw [if_pos h2]
      simpa using h2
    · rw [if_neg h2]
      simp

lemma row_path_claimPath (path_col : Option String) (tiers : List String)
    (label : String) (r : TRow) (hpc : ∀ pc, path_col = some pc → ¬pc = "") :
    (if (row_path path_col tiers r).isEmpty then [label]
     else row_path path_col tiers r) = claimPath path_col tiers label r := by
  cases path_col with
  | none =>
    simp only [row_path, claimPath, optTruthy, Bool.false_eq_true, if_false]
    by_cases h : ((tiers.map (cellStr r)).filter (fun v => !(v == ""))).isEmpty
        = true
    · simp [h]
    · simp [h]
  | some pc =>
    have hne : ¬pc = "" := hpc pc rfl
    have hopt : optTruthy (some pc) = true := by
      simpa [optTruthy] using hne
    simp only [row_path, claimPath, hopt, if_true, Option.getD_some]
    cases hv : rowGet r pc with
    | str raw =>
      by_cases hraw : raw == ""
      · have hblank : pyStrip raw = "" := by
          have : raw = "" := by simpa using hraw
          rw [this]
          rfl
        simp only [hraw, if_true, hblank]
        by_cases h : ((tiers.map (cellStr r)).filter
            (fun v => !(v == ""))).isEmpty = true
        · simp [h]
        · simp [h]
      · by_cases hstrip : (pyStrip raw == "") = true
        · have hblank : pyStrip raw = "" := by simpa using hstrip
          have hparts : splitPathParts raw = [] := splitPathParts_blank hblank
          simp only [hraw, hstrip, hparts]
          by_cases h : ((tiers.map (cellStr r)).filter
              (fun v => !(v == ""))).isEmpty = true
          · simp [h]
          · simp [h]
        · simp only [hraw, hstrip]
          by_cases hparts : (splitPathParts raw).isEmpty = true
          · simp only [hparts]
            by_cases h : ((tiers.map (cellStr r)).filter
                (fun v => !(v == ""))).isEmpty = true
            · simp [h, List.isEmpty_iff.mp hparts]
            · simp [h, List.isEmpty_iff.mp hparts]
          · have hne : splitPathParts raw ≠ [] := by
              intro habs
              rw [habs] at hparts
              simp at hparts
            simp [hparts, hne]
    | _ =>
      simp only [hv]
      by_cases h : ((tiers.map (cellStr r)).filter
          (fun v => !(v == ""))).isEmpty = true
      · simp [h]
      · simp [h]

/-- C8: the path of every row emitted by `normalize_3x` follows the claim's
derivation order (`claimPath`): a present, non-blank string under the path
column is split on the delimiters `>`, `/`, `\\`, `,` with each segment
trimmed and empties dropped, and used when non-empty; otherwise the
non-empty trimmed tier-column values in declared order; otherwise
`[label]` — so the emitted path is never empty.  The example conjunct runs
the spec's three bullet rows: a delimited path, a tier-only row and a row
with neither. -/
theorem C8_path_derivation :
    (∀ path_col tiers label r, (∀ pc, path_col = some pc → ¬pc = "") →
      (if (row_path path_col tiers r).isEmpty then [label]
       else row_path path_col tiers r) = claimPath path_col tiers label r)
    ∧ (∀ id_col label_col path_col scd_col tiers r cat,
        (∀ pc, path_col = some pc → ¬pc = "") →
        emit3 id_col label_col path_col scd_col tiers r = some cat →
          cat.path = claimPath path_col tiers cat.label r ∧ cat.path ≠ [])
    ∧ normalize_3x ⟨["Unique ID", "Name", "Path", "Tier 1", "Tier 2"],
        [[("Unique ID", .str "1"), ("Name", .str "n1"),
          ("Path", .str "Tech > Computing > AI"),
          ("Tier 1", .str "a"), ("Tier 2", .str "b")],
         [("Unique ID", .str "2"), ("Name", .str "n2"), ("Path", .str ""),
          ("Tier 1", .str "Tech"), ("Tier 2", .str "Computing")],
         [("Unique ID", .str "3"), ("Name", .str "n3"), ("Path", .str ""),
          ("Tier 1", .str ""), ("Tier 2", .str "")]]⟩ =
      .ok [⟨"1", "n1", ["Tech", "Computing", "AI"], false⟩,
        ⟨"2", "n2", ["Tech", "Computing"], false⟩,
        ⟨"3", "n3", ["n3"], false⟩] := by
  refine ⟨fun path_col tiers label r hpc =>
    row_path_claimPath path_col tiers label r hpc, ?_, rfl⟩
  intro id_col label_col path_col scd_col tiers r cat hpc h
  simp only [emit3] at h
  by_cases hc : (cellStr r id_col == "" || cellStr r label_col == "") = true
  · rw [if_pos hc] at h
    exact absurd h (by simp)
  · rw [if_neg hc] at h
    cases Option.some.inj h
    constructor
    · simpa using row_path_claimPath path_col tiers (cellStr r label_col) r hpc
    · have heq := row_path_claimPath path_col tiers (cellStr r label_col) r hpc
      have hnn := claimPath_ne_nil path_col tiers (cellStr r label_col) r
      rw [← heq] at hnn
      simpa using hnn

/-! ## Column selection through the lower-cased dict -/

lemma find?_append_none {α : Type} {l1 l2 : List α} {p : α → Bool}
    (h : l1.find? p = Option.none) : (l1 ++ l2).find? p = l2.find? p := by
  induction l1 with
  | nil => rfl
  | cons a l ih =>
    cases hp : p a with
    | true =>
      rw [List.find?_cons_of_pos _ hp] at h
      exact absurd h (by simp)
    | false =>
      rw [List.find?_cons_of_neg _ (by simp [hp])] at h
      rw [List.cons_append, List.find?_cons_of_neg _ (by simp [hp])]
      exact ih h

lemma find?_append_some {α : Type} {l1 l2 : List α} {p : α → Bool} {a : α}
    (h : l1.find? p = some a) : (l1 ++ l2).find? p = some a := by
  induction l1 with
  | nil => exact absurd h (by simp)
  | cons b l ih =>
    cases hp : p b with
    | true =>
      rw [List.find?_cons_of_pos _ hp] at h
      rw [List.cons_append, List.find?_cons_of_pos _ hp]
      exact h
    | false =>
      rw [List.find?_cons_of_neg _ (by simp [hp])] at h
      rw [List.cons_append, List.find?_cons_of_neg _ (by simp [hp])]
      exact ih h

lemma beq_symm_false {a b : String} (h : (a == b) = false) :
    (b == a) = false := by
  simp only [beq_eq_false_iff_ne] at h ⊢
  exact fun he => h he.symm

lemma upsert_fst_of_contains {M : List (String × String)} {k : String}
    (v : String) (hk : ((M.map Prod.fst).contains k) = true) :
    (upsert M k v).map Prod.fst = M.map Prod.fst := by
  induction M with
  | nil => simp at hk
  | cons kv rest ih =>
    rcases kv with ⟨k0, v0⟩
    by_cases h0 : (k0 == k) = true
    · simp [upsert, h0]
    · have h0f : (k0 == k) = false := Bool.eq_false_iff.mpr h0
      have hk2 : ((rest.map Prod.fst).contains k) = true := by
        simpa [List.contains_cons, beq_symm_false h0f] using hk
      simp [upsert, h0f, ih hk2]

lemma upsert_of_not_contains {M : List (String × String)} {k : String}
    (v : String) (hk : ((M.map Prod.fst).contains k) = false) :
    upsert M k v = M ++ [(k, v)] := by
  induction M with
  | nil => rfl
  | cons kv rest ih =>
    rcases kv with ⟨k0, v0⟩
    simp only [List.map_cons, List.contains_cons, Bool.or_eq_false_iff] at hk
    have h0f : (k0 == k) = false := beq_symm_false hk.1
    simp [upsert, h0f, ih hk.2]

lemma upsert_find_of_contains {M : List (String × String)} {k : String}
    (v : String) (q : String → Bool)
    (hk : ((M.map Prod.fst).contains k) = true) :
    List.find? (fun p => q p.1) (upsert M k v) =
      (List.find? (fun p => q p.1) M).map
        (fun p => if p.1 == k then (k, v) else p) := by
  induction M with
  | nil => simp at hk
  | cons kv rest ih =>
    rcases kv with ⟨k0, v0⟩
    by_cases h0 : (k0 == k) = true
    · have hkk : k0 = k := eq_of_beq h0
      subst hkk
      have hup : upsert ((k0, v0) :: rest) k0 v = (k0, v) :: rest := by
        simp [upsert]
      rw [hup]
      cases hq : q k0 with
      | true =>
        rw [List.find?_cons_of_pos (p := fun p : String × String => q p.1) _
            (by simpa using hq),
          List.find?_cons_of_pos (p := fun p : String × String => q p.1) _
            (by simpa using hq)]
        simp
      | false =>
        rw [List.find?_cons_of_neg (p := fun p : String × String => q p.1) _
            (by simp [hq]),
          List.find?_cons_of_neg (p := fun p : String × String => q p.1) _
            (by simp [hq])]
        cases hf : List.find? (fun p => q p.1) rest with
        | none => simp
        | some p =>
          have hqp : q p.1 = true := by
            simpa using List.find?_some hf
          have hpk : ¬(p.1 = k0) := by
            intro he
            rw [he, hq] at hqp
            exact Bool.false_ne_true hqp
          simp [hpk]
    · have h0f : (k0 == k) = false := Bool.eq_false_iff.mpr h0
      have hk2 : ((rest.map Prod.fst).contains k) = true := by
        simpa [List.contains_cons, beq_symm_false h0f] using hk
      have hup : upsert ((k0, v0) :: rest) k v = (k0, v0) :: upsert rest k v := by
        simp [upsert, h0f]
      rw [hup]
      cases hq : q k0 with
      | true =>
        rw [List.find?_cons_of_pos (p := fun p : String × String => q p.1) _
            (by simpa using hq),
          List.find?_cons_of_pos (p := fun p : String × String => q p.1) _
            (by simpa using hq)]
        have : ¬(k0 = k) := by simpa using h0f
        simp [this]
      | false =>
        rw [List.find?_cons_of_neg (p := fun p : String × String => q p.1) _
            (by simp [hq]),
          List.find?_cons_of_neg (p := fun p : String × String => q p.1) _
            (by simp [hq])]
        exact ih hk2

lemma colsMap_append (hs : List String) (c : String) :
    colsMap (hs ++ [c]) = upsert (colsMap hs) (pyLower c) c := by
  simp [colsMap, List.foldl_append]

lemma colsMap_contains (hs : List String) :
    ∀ k, ((colsMap hs).map Prod.fst).contains k =
      hs.any (fun h => pyLower h == k) := by
  induction hs using List.reverseRecOn with
  | nil =>
    intro k
    rfl
  | append_singleton hs c ih =>
    intro k
    rw [colsMap_append]
    have hany : (hs ++ [c]).any (fun h => pyLower h == k) =
        (hs.any (fun h => pyLower h == k) || (pyLower c == k)) := by
      simp
    rw [hany]
    by_cases hc : ((colsMap hs).map Prod.fst).contains (pyLower c) = true
    · rw [upsert_fst_of_contains c hc, ih k]
      by_cases hk : (pyLower c == k) = true
      · have hkc : pyLower c = k := eq_of_beq hk
        have htrue : hs.any (fun h => pyLower h == k) = true := by
          rw [← ih k, ← hkc]
          exact hc
        rw [htrue, hk]
        rfl
      · rw [Bool.eq_false_iff.mpr hk]
        simp
    · have hcf := Bool.eq_false_iff.mpr hc
      rw [upsert_of_not_contains c hcf]
      have happ : ∀ (l : List String) (a : String),
          (l ++ [a]).contains k = (l.contains k || (a == k)) := by
        intro l a
        induction l with
        | nil =>
          rw [List.nil_append, List.contains_cons]
          simp only [List.contains_nil, Bool.or_false, Bool.false_or]
          by_cases h : k = a
          · simp [h]
          · have h2 : ¬(a = k) := fun he => h he.symm
            simp [beq_eq_false_iff_ne, h, h2]
        | cons b bs ihb =>
          rw [List.cons_append, List.contains_cons, List.contains_cons, ihb]
          rw [Bool.or_assoc]
      rw [List.map_append, List.map_cons, List.map_nil]
      rw [happ, ih k]

lemma colsMap_find (A : List String) (hs : List String) :
    List.find? (fun p => A.contains p.1) (colsMap hs) =
      (List.find? (fun c => A.contains (pyLower c)) hs).map
        (fun c0 => (pyLower c0,
          ((hs.filter (fun h => pyLower h == pyLower c0)).getLast?).getD c0)) := by
  induction hs using List.reverseRecOn with
  | nil => rfl
  | append_singleton hs c ih =>
    rw [colsMap_append]
    cases hfind : List.find? (fun c2 => A.contains (pyLower c2)) hs with
    | some c0 =>
      have hfind2 : List.find? (fun c2 => A.contains (pyLower c2)) (hs ++ [c]) =
          some c0 := find?_append_some hfind
      rw [hfind2]
      rw [hfind] at ih
      simp only [Option.map_some'] at ih ⊢
      by_cases hc : ((colsMap hs).map Prod.fst).contains (pyLower c) = true
      · rw [upsert_find_of_contains c _ hc, ih]
        simp only [Option.map_some']
        by_cases hcc : (pyLower c0 == pyLower c) = true
        · have heq : pyLower c0 = pyLower c := eq_of_beq hcc
          have hfilter : (hs ++ [c]).filter
              (fun h => pyLower h == pyLower c0) =
              hs.filter (fun h => pyLower h == pyLower c0) ++ [c] := by
            rw [List.filter_append]
            simp [heq]
          rw [hfilter, List.getLast?_concat]
          simp [heq]
        · have hccf : (pyLower c == pyLower c0) = false :=
            beq_symm_false (Bool.eq_false_iff.mpr hcc)
          have hfilter : (hs ++ [c]).filter
              (fun h => pyLower h == pyLower c0) =
              hs.filter (fun h => pyLower h == pyLower c0) := by
            rw [List.filter_append]
            simp [hccf]
          rw [hfilter]
          simp [hcc]
      · have hcf := Bool.eq_false_iff.mpr hc
        rw [upsert_of_not_contains c hcf, find?_append_some ih]
        have hkey : pyLower c0 ≠ pyLower c := by
          intro he
          have hmem : (pyLower c0,
              ((hs.filter (fun h => pyLower h == pyLower c0)).getLast?).getD c0)
              ∈ colsMap hs := List.mem_of_find?_eq_some ih
          have hkmem : pyLower c0 ∈ (colsMap hs).map Prod.fst :=
            List.mem_map_of_mem Prod.fst hmem
          rw [he] at hkmem
          have : ((colsMap hs).map Prod.fst).contains (pyLower c) = true :=
            List.elem_eq_true_of_mem hkmem
          exact hc this
        have hccf : (pyLower c == pyLower c0) = false := by
          simp only [beq_eq_false_iff_ne]
          exact fun he => hkey he.symm
        have hfilter : (hs ++ [c]).filter
            (fun h => pyLower h == pyLower c0) =
            hs.filter (fun h => pyLower h == pyLower c0) := by
          rw [List.filter_append]
          simp [hccf]
        rw [hfilter]
    | none =>
      rw [hfind] at ih
      simp only [Option.map_none'] at ih
      by_cases hA : A.contains (pyLower c) = true
      · have hfind2 : List.find? (fun c2 => A.contains (pyLower c2))
            (hs ++ [c]) = some c := by
          rw [find?_append_none hfind]
          exact List.find?_cons_of_pos _ (by simpa using hA)
        rw [hfind2]
        simp only [Option.map_some']
        have hnofilter : ∀ h ∈ hs, (pyLower h == pyLower c) = false := by
          intro h hmem
          have hno := List.find?_eq_none.mp hfind h hmem
          simp only [beq_eq_false_iff_ne]
          intro he
          rw [he] at hno
          exact hno (by simpa using hA)
        have hcf : ((colsMap hs).map Prod.fst).contains (pyLower c) = false := by
          rw [colsMap_contains]
          exact List.any_eq_false.mpr (fun h hmem => by
            simp [hnofilter h hmem])
        rw [upsert_of_not_contains c hcf, find?_append_none ih]
        rw [List.find?_cons_of_pos
          (p := fun p : String × String => A.contains p.1) _
          (by simpa using hA)]
        have hfilter : (hs ++ [c]).filter (fun h => pyLower h == pyLower c) =
            [c] := by
          rw [List.filter_append, List.filter_eq_nil_iff.mpr (fun h hmem => by
            simp [hnofilter h hmem])]
          simp
        rw [hfilter]
        rfl
      · have hAf : A.contains (pyLower c) = false := Bool.eq_false_iff.mpr hA
        have hfind2 : List.find? (fun c2 => A.contains (pyLower c2))
            (hs ++ [c]) = Option.none := by
          rw [find?_append_none hfind]
          rw [List.find?_cons_of_neg
            (p := fun c2 => A.contains (pyLower c2)) _ hA]
          rfl
        rw [hfind2]
        simp only [Option.map_none']
        by_cases hc : ((colsMap hs).map Prod.fst).contains (pyLower c) = true
        · rw [upsert_find_of_contains c _ hc, ih]
          rfl
        · have hcf := Bool.eq_false_iff.mpr hc
          rw [upsert_of_not_contains c hcf, find?_append_none ih]
          rw [List.find?_cons_of_neg
            (p := fun p : String × String => A.contains p.1) _ hA]
          rfl

/-- C9 counterexample: with headers `Code`, `CODE`, `Label` the first
header whose lower-cased form is an id alias is `Code`, whose trimmed value
in the row is `"a"`; but `normalize_2x` emits `"b"`, the value of the later
header `CODE` — the dict comprehension `{c.lower(): c for c in df.columns}`
keeps the last header for each lower-cased form, so the claim's
"first header" selection does not hold. -/
theorem C9_counterexample :
    normalize_2x ⟨["Code", "CODE", "Label"],
      [[("Code", .str "a"), ("CODE", .str "b"), ("Label", .str "x")]]⟩ =
      .ok [⟨"b", "x"⟩]
    ∧ List.find? (fun c => idAliases2.contains (pyLower c))
        ["Code", "CODE", "Label"] = some "Code"
    ∧ cellStr [("Code", .str "a"), ("CODE", .str "b"), ("Label", .str "x")]
        "Code" = "a"
    ∧ ¬("b" : String) = "a" :=
  ⟨rfl, rfl, rfl, by decide⟩

/-- C9 (amended): the id and label columns are selected by the first
lower-cased header form that is an alias, resolved to the *last* header
bearing that lower-cased form (with all-distinct lower-cased headers this
is the first matching header); `normalize_2x` fails with the schema
inference error exactly when either selection comes up empty, and
otherwise emits, in input order, exactly the rows whose trimmed id and
label values are non-empty, as their trimmed pairs.  The closing conjunct
is the spec's example: the row with an empty code is dropped. -/
theorem C9_normalize_2x_amended :
    (∀ (hs A : List String),
      findAlias (colsMap hs) A =
        (List.find? (fun c => A.contains (pyLower c)) hs).map
          (fun c0 =>
            ((hs.filter (fun h => pyLower h == pyLower c0)).getLast?).getD c0))
    ∧ (∀ df : DataFrame,
        (normalize_2x df = .error .inferFail ↔
          (optTruthy (findAlias (colsMap df.cols) idAliases2) = false
            ∨ optTruthy (findAlias (colsMap df.cols) labelAliases) = false))
        ∧ ∀ cats, normalize_2x df = .ok cats →
            cats = df.rows.filterMap
              (emit2 ((findAlias (colsMap df.cols) idAliases2).getD "")
                ((findAlias (colsMap df.cols) labelAliases).getD "")))
    ∧ (∀ id_col label_col r cat,
        emit2 id_col label_col r = some cat ↔
          (¬cellStr r id_col = "" ∧ ¬cellStr r label_col = "" ∧
            cat = ⟨cellStr r id_col, cellStr r label_col⟩))
    ∧ normalize_2x ⟨["Code", "Label"],
        [[("Code", .str "1-1"), ("Label", .str "Arts")],
         [("Code", .str ""), ("Label", .str "X")]]⟩ =
      .ok [⟨"1-1", "Arts"⟩] := by
  refine ⟨?_, ?_, ?_, rfl⟩
  · intro hs A
    rw [findAlias, colsMap_find, Option.map_map]
    rfl
  · intro df
    constructor
    · unfold normalize_2x
      by_cases h : (optTruthy (findAlias (colsMap df.cols) idAliases2) &&
          optTruthy (findAlias (colsMap df.cols) labelAliases)) = true
      · rw [if_pos h]
        rcases Bool.and_eq_true_iff.mp h with ⟨h1, h2⟩
        constructor
        · intro habs
          exact absurd habs (by simp)
        · rintro (h3 | h3)
          · rw [h1] at h3
            exact absurd h3 (by simp)
          · rw [h2] at h3
            exact absurd h3 (by simp)
      · rw [if_neg h]
        constructor
        · intro _
          rcases Bool.and_eq_false_iff.mp (Bool.eq_false_iff.mpr h) with h1 | h1
          · exact Or.inl h1
          · exact Or.inr h1
        · intro _
          rfl
    · intro cats hok
      unfold normalize_2x at hok
      by_cases h : (optTruthy (findAlias (colsMap df.cols) idAliases2) &&
          optTruthy (findAlias (colsMap df.cols) labelAliases)) = true
      · rw [if_pos h] at hok
        exact (Except.ok.inj hok).symm
      · rw [if_neg h] at hok
        exact absurd hok (by simp)
  · intro id_col label_col r cat
    unfold emit2
    by_cases hc : (cellStr r id_col == "" || cellStr r label_col == "") = true
    · rw [if_pos hc]
      constructor
      · intro habs
        exact absurd habs (by simp)
      · rintro ⟨h1, h2, _⟩
        rcases Bool.or_eq_true_iff.mp hc with h3 | h3
        · exact absurd (by simpa using h3) h1
        · exact absurd (by simpa using h3) h2
    · rw [if_neg hc]
      have hsplit := Bool.or_eq_false_iff.mp (Bool.eq_false_iff.mpr hc)
      constructor
      · intro hsome
        refine ⟨by simpa using hsplit.1, by simpa using hsplit.2, ?_⟩
        exact (Option.some.inj hsome).symm
      · rintro ⟨_, _, rfl⟩
        rfl

/-! ## Tree walker -/

mutual

/-- The nodes the walker visits, with the ancestor list each is visited
under, in depth-first order: the node itself first, then the dict elements
of its list-valued children in order.  Mirrors the traversal of `walkF`
without emitting rows. -/
def dfsF : Nat → PyDict → List PyVal → List (PyDict × List PyVal)
  | 0, node, anc => [(node, anc)]
  | fuel + 1, node, anc =>
    (node, anc) ::
      (match childrenOf node with
       | .list xs => dfsListF fuel xs
           (if pyTruthy (labelOf node) then anc ++ [labelOf node] else anc)
       | _ => [])

/-- Depth-first visit of the dict elements of a child list. -/
def dfsListF : Nat → PyList → List PyVal → List (PyDict × List PyVal)
  | _, .nil, _ => []
  | 0, .cons _ _, _ => []
  | fuel + 1, .cons x rest, anc =>
    (match x with
     | .dict d => dfsF fuel d anc
     | _ => []) ++ dfsListF fuel rest anc

end

/-- The row a visited node contributes: one row exactly when both its id
and label expressions are truthy. -/
def specRow (node : PyDict) (anc : List PyVal) : Option TRow :=
  if pyTruthy (nidOf node) && pyTruthy (labelOf node) then
    some (nodeRow (nidOf node) (labelOf node) anc (scdOf node))
  else Option.none

/-- The walker's DFS enumeration at the walker's own fuel. -/
def dfsNodes (node : PyDict) (anc : List PyVal) : List (PyDict × List PyVal) :=
  dfsF (pySizeD node + 1) node anc

lemma filterMap_cons_toList {α β : Type} (f : α → Option β) (a : α)
    (l : List α) :
    List.filterMap f (a :: l) = (f a).toList ++ List.filterMap f l := by
  cases h : f a <;> simp [List.filterMap_cons, h]

lemma specRow_toList (node : PyDict) (anc : List PyVal) :
    (specRow node anc).toList =
      if pyTruthy (nidOf node) && pyTruthy (labelOf node) then
        [nodeRow (nidOf node) (labelOf node) anc (scdOf node)]
      else [] := by
  unfold specRow
  by_cases hb : (pyTruthy (nidOf node) && pyTruthy (labelOf node)) = true
  · simp [hb]
  · simp [hb]

lemma walkF_dfs (fuel : Nat) :
    (∀ node anc rows, walkF fuel node anc = .ok rows →
      rows = (dfsF fuel node anc).filterMap (fun p => specRow p.1 p.2))
    ∧ (∀ xs anc rows, walkListF fuel xs anc = .ok rows →
      rows = (dfsListF fuel xs anc).filterMap (fun p => specRow p.1 p.2)) := by
  induction fuel with
  | zero =>
    constructor
    · intro node anc rows h
      exact absurd h (by simp [walkF])
    · intro xs anc rows h
      cases xs with
      | nil =>
        cases (Except.ok.inj h)
        rfl
      | cons x rest =>
        exact absurd h (by simp [walkListF])
  | succ f ih =>
    constructor
    · intro node anc rows h
      rw [walkF] at h
      rw [dfsF, filterMap_cons_toList]
      simp only
      split at h
      · rename_i xs hch
        rw [hch]
        split at h
        · rename_i rs hrec
          cases (Except.ok.inj h)
          rw [specRow_toList, ih.2 _ _ _ hrec]
        · exact absurd h (by simp)
      · rename_i kvs hch
        rw [hch]
        cases (Except.ok.inj h)
        rw [specRow_toList]
        simp
      · rename_i sv hch
        rw [hch]
        cases (Except.ok.inj h)
        rw [specRow_toList]
        simp
      · rename_i hch
        rw [hch]
        cases (Except.ok.inj h)
        rw [specRow_toList]
        simp
      · exact absurd h (by simp)
    · intro xs anc rows h
      cases xs with
      | nil =>
        cases (Except.ok.inj h)
        rfl
      | cons x rest =>
        cases x with
        | dict d =>
          rw [walkListF] at h
          rw [dfsListF]
          split at h
          · rename_i rs hw
            split at h
            · rename_i more hrest
              cases (Except.ok.inj h)
              rw [List.filterMap_append, ih.1 _ _ _ hw, ih.2 _ _ _ hrest]
            · exact absurd h (by simp)
          · exact absurd h (by simp)
        | none =>
          simp only [walkListF] at h
          simp only [dfsListF, List.nil_append]
          exact ih.2 _ _ _ h
        | nan =>
          simp only [walkListF] at h
          simp only [dfsListF, List.nil_append]
          exact ih.2 _ _ _ h
        | bool b =>
          simp only [walkListF] at h
          simp only [dfsListF, List.nil_append]
          exact ih.2 _ _ _ h
        | int n =>
          simp only [walkListF] at h
          simp only [dfsListF, List.nil_append]
          exact ih.2 _ _ _ h
        | float lex =>
          simp only [walkListF] at h
          simp only [dfsListF, List.nil_append]
          exact ih.2 _ _ _ h
        | str sv =>
          simp only [walkListF] at h
          simp only [dfsListF, List.nil_append]
          exact ih.2 _ _ _ h
        | list ys =>
          simp only [walkListF] at h
          simp only [dfsListF, List.nil_append]
          exact ih.2 _ _ _ h

/-- C4 counterexample: the node `{"id": "", "label": "X"}` has both fields
present (`node.get` returns a string for each), yet the walker emits no row
for it — `nid and label` tests truthiness, not presence, so an
empty-string id suppresses the row. -/
theorem C4_counterexample :
    pyGet (.cons "id" (.str "") (.cons "label" (.str "X") PyDict.nil)) "id" =
      .str ""
    ∧ pyGet (.cons "id" (.str "") (.cons "label" (.str "X") PyDict.nil))
        "label" = .str "X"
    ∧ walk (.cons "id" (.str "") (.cons "label" (.str "X") PyDict.nil)) [] =
      .ok [] :=
  ⟨rfl, rfl, rfl⟩

/-- C4 (amended): whenever the walker succeeds, its output is exactly one
row per visited node with truthy id and truthy label, in depth-first order
(`dfsF` enumerates each node once, self before children, children in list
order, with the ancestor list extended by the node's label exactly when the
label is truthy), each row being
`{id, label, path: ancestors + [label], scd}`; a node whose id or label is
missing or falsy contributes no row but its children are still visited.
The second conjunct is the spec's example tree, yielding exactly the two
rows with paths `["Root"]` and `["Root", "Child"]`. -/
theorem C4_walk_flattening_amended :
    (∀ fuel node anc rows, walkF fuel node anc = .ok rows →
      rows = (dfsF fuel node anc).filterMap (fun p => specRow p.1 p.2))
    ∧ walk (.cons "id" (.str "1") (.cons "label" (.str "Root")
        (.cons "children" (.list (.cons (.dict (.cons "id" (.str "1.1")
          (.cons "label" (.str "Child") PyDict.nil))) PyList.nil))
          PyDict.nil))) [] =
      .ok [[("id", .str "1"), ("label", .str "Root"),
            ("path", .list (.cons (.str "Root") PyList.nil)), ("scd", .none)],
           [("id", .str "1.1"), ("label", .str "Child"),
            ("path", .list (.cons (.str "Root")
              (.cons (.str "Child") PyList.nil))), ("scd", .none)]] :=
  ⟨fun fuel node anc rows h => (walkF_dfs fuel).1 node anc rows h, rfl⟩

/-! ## Tree-shaped JSON through the full pipeline -/

/-- All elements of the list are mappings. -/
def allDictsL : PyList → Bool
  | .nil => true
  | .cons (.dict _) rest => allDictsL rest
  | .cons _ _ => false

/-- A tree-shaped JSON document in the claim's sense: any value that is not
a non-empty flat list of mapping objects. -/
def treeShaped : PyVal → Bool
  | .list PyList.nil => true
  | .list xs => !(allDictsL xs)
  | _ => true

lemma flatRows_none : ∀ {xs : PyList}, allDictsL xs = false →
    flatRows xs = Option.none
  | .nil, h => by simp [allDictsL] at h
  | .cons (.dict d) rest, h => by
    have h2 : allDictsL rest = false := by
      simpa [allDictsL] using h
    simp [flatRows, flatRows_none h2]
  | .cons .none _, _ => rfl
  | .cons .nan _, _ => rfl
  | .cons (.bool _) _, _ => rfl
  | .cons (.int _) _, _ => rfl
  | .cons (.float _) _, _ => rfl
  | .cons (.str _) _, _ => rfl
  | .cons (.list _) _, _ => rfl

/-- A row of the shape the tree walker appends. -/
def shapedRow (r : TRow) : Prop :=
  ∃ nid label ancs scd, r = nodeRow nid label ancs scd

lemma specRow_shaped {node : PyDict} {anc : List PyVal} {r : TRow}
    (h : specRow node anc = some r) : shapedRow r := by
  unfold specRow at h
  by_cases hb : (pyTruthy (nidOf node) && pyTruthy (labelOf node)) = true
  · rw [if_pos hb] at h
    exact ⟨_, _, _, _, (Option.some.inj h).symm⟩
  · rw [if_neg hb] at h
    exact absurd h (by simp)

lemma walkF_rows_shape {fuel : Nat} {node : PyDict} {anc : List PyVal}
    {rows : List TRow} (h : walkF fuel node anc = .ok rows) :
    ∀ r ∈ rows, shapedRow r := by
  intro r hr
  rw [(walkF_dfs fuel).1 node anc rows h] at hr
  rcases List.mem_filterMap.mp hr with ⟨p, _, hspec⟩
  exact specRow_shaped hspec

lemma walkListF_rows_shape {fuel : Nat} {xs : PyList} {anc : List PyVal}
    {rows : List TRow} (h : walkListF fuel xs anc = .ok rows) :
    ∀ r ∈ rows, shapedRow r := by
  intro r hr
  rw [(walkF_dfs fuel).2 xs anc rows h] at hr
  rcases List.mem_filterMap.mp hr with ⟨p, _, hspec⟩
  exact specRow_shaped hspec

lemma unionKeys_shaped (rows : List TRow)
    (hsh : ∀ r ∈ rows, shapedRow r) :
    rows = [] ∨ unionKeys rows = ["id", "label", "path", "scd"] := by
  cases rows with
  | nil => exact Or.inl rfl
  | cons r0 rest =>
    right
    rcases hsh r0 (List.mem_cons_self _ _) with ⟨a, b, c, d, rfl⟩
    have hstep : ∀ (rs : List TRow), (∀ r ∈ rs, shapedRow r) →
        rs.foldl (fun acc r =>
          acc ++ (r.map Prod.fst).filter (fun k => !(acc.contains k)))
          ["id", "label", "path", "scd"] = ["id", "label", "path", "scd"] := by
      intro rs
      induction rs with
      | nil =>
        intro _
        rfl
      | cons r rs2 ih =>
        intro hall
        rcases hall r (List.mem_cons_self _ _) with ⟨a2, b2, c2, d2, rfl⟩
        have hone : (["id", "label", "path", "scd"] : List String) ++
            ((nodeRow a2 b2 c2 d2).map Prod.fst).filter
              (fun k => !((["id", "label", "path", "scd"] :
                List String).contains k)) = ["id", "label", "path", "scd"] :=
          rfl
        rw [List.foldl_cons, hone]
        exact ih (fun r2 hr2 => hall r2 (List.mem_cons_of_mem _ hr2))
    unfold unionKeys
    rw [List.foldl_cons]
    have hfirst : ([] : List String) ++
        ((nodeRow a b c d).map Prod.fst).filter
          (fun k => !(([] : List String).contains k)) =
        ["id", "label", "path", "scd"] := rfl
    rw [hfirst]
    exact hstep rest (fun r2 hr2 => hsh r2 (List.mem_cons_of_mem _ hr2))

lemma emit3_shaped_path {r : TRow} {cat : HierCat} (hsh : shapedRow r)
    (h : emit3 "id" "label" (some "path") (some "scd") [] r = some cat) :
    cat.path = [cat.label] := by
  rcases hsh with ⟨nid, label, ancs, scd, rfl⟩
  have hrp : row_path (some "path") [] (nodeRow nid label ancs scd) = [] := by
    have hpath : rowGet (nodeRow nid label ancs scd) "path" =
        .list (pl (ancs ++ [label])) := rfl
    simp [row_path, optTruthy, hpath]
  simp only [emit3, hrp] at h
  by_cases hc : (cellStr (nodeRow nid label ancs scd) "id" == "" ||
      cellStr (nodeRow nid label ancs scd) "label" == "") = true
  · rw [if_pos hc] at h
    exact absurd h (by simp)
  · rw [if_neg hc] at h
    cases Option.some.inj h
    rfl

/-- C3: parsing a tree-shaped JSON document (valid JSON that is not a
non-empty flat list of mapping objects) and normalizing the result with
`normalize_3x` yields categories whose path is always the one-element
`[label]`, regardless of nesting depth: the walker stores each row's path
as a list value, the normalizer's path derivation only accepts string
path-column values, and the walker's tables have no tier columns, so every
emitted row falls back to `[label]`. -/
theorem C3_tree_paths_collapse :
    ∀ (text name : String) (d : PyVal) (df : DataFrame) (cats : List HierCat),
      strEndsWith (pyLower name) ".tsv" = false →
      strEndsWith (pyLower name) ".csv" = false →
      jsonLoads text = some d →
      treeShaped d = true →
      parse_table text name = .ok df →
      normalize_3x df = .ok cats →
      ∀ c ∈ cats, c.path = [c.label] := by
  intro text name d df cats h1 h2 hj ht hp hn c hc
  rw [parse_table] at hp
  simp only [h1, h2, Bool.false_eq_true, if_false, hj] at hp
  have hshaped : ∃ rows, df = dfOfRows rows ∧ ∀ r ∈ rows, shapedRow r := by
    cases d with
    | dict dd =>
      simp only at hp
      cases hw : walk dd [] with
      | ok rows =>
        rw [hw] at hp
        simp only at hp
        exact ⟨rows, (Except.ok.inj hp).symm, walkF_rows_shape hw⟩
      | error e =>
        rw [hw] at hp
        exact absurd hp (by simp)
    | list xs =>
      simp only at hp
      by_cases hsw : startsWithDict xs = true
      · rw [if_pos hsw] at hp
        have hall : allDictsL xs = false := by
          cases xs with
          | nil => simp [startsWithDict] at hsw
          | cons x rest =>
            cases x with
            | dict d0 =>
              have : treeShaped (.list (PyList.cons (.dict d0) rest)) =
                  !(allDictsL (PyList.cons (.dict d0) rest)) := rfl
              rw [this] at ht
              simpa using ht
            | none => simp [startsWithDict] at hsw
            | nan => simp [startsWithDict] at hsw
            | bool b => simp [startsWithDict] at hsw
            | int n => simp [startsWithDict] at hsw
            | float lex => simp [startsWithDict] at hsw
            | str sv => simp [startsWithDict] at hsw
            | list ys => simp [startsWithDict] at hsw
        rw [flatRows_none hall] at hp
        exact absurd hp (by simp)
      · rw [if_neg hsw] at hp
        cases hw : walkTop xs with
        | ok rows =>
          rw [hw] at hp
          simp only at hp
          exact ⟨rows, (Except.ok.inj hp).symm, walkListF_rows_shape hw⟩
        | error e =>
          rw [hw] at hp
          exact absurd hp (by simp)
    | none => exact ⟨[], (Except.ok.inj hp).symm, by simp⟩
    | nan => exact ⟨[], (Except.ok.inj hp).symm, by simp⟩
    | bool b => exact ⟨[], (Except.ok.inj hp).symm, by simp⟩
    | int n => exact ⟨[], (Except.ok.inj hp).symm, by simp⟩
    | float lex => exact ⟨[], (Except.ok.inj hp).symm, by simp⟩
    | str sv => exact ⟨[], (Except.ok.inj hp).symm, by simp⟩
  rcases hshaped with ⟨rows, rfl, hsh⟩
  rcases unionKeys_shaped rows hsh with hnil | hkeys
  · subst hnil
    exact absurd hn (by simp [normalize_3x, dfOfRows, unionKeys, colsMap,
      findAlias, optTruthy])
  · have hdf : dfOfRows rows = ⟨["id", "label", "path", "scd"], rows⟩ := by
      unfold dfOfRows
      rw [hkeys]
    rw [hdf] at hn
    have hnorm : normalize_3x ⟨["id", "label", "path", "scd"], rows⟩ =
        .ok (rows.filterMap
          (emit3 "id" "label" (some "path") (some "scd") [])) := rfl
    rw [hnorm] at hn
    cases Except.ok.inj hn
    rcases List.mem_filterMap.mp hc with ⟨r, hrmem, hremit⟩
    exact emit3_shaped_path (hsh r hrmem) hremit

/-- C3 witness: a three-level nested taxonomy run through `parse_table`
and `normalize_3x`; the deepest category's path collapses to `[label]`. -/
theorem C3_witness :
    HierCat.path ⟨"c", "C", ["C"], false⟩ =
      [HierCat.label ⟨"c", "C", ["C"], false⟩] :=
  C3_tree_paths_collapse
    "\x7b\"id\":\"a\",\"label\":\"A\",\"children\":[\x7b\"id\":\"b\",\"label\":\"B\",\"children\":[\x7b\"id\":\"c\",\"label\":\"C\"\x7d]\x7d]\x7d"
    "taxonomy.json"
    (.dict (.cons "id" (.str "a") (.cons "label" (.str "A")
      (.cons "children" (.list (.cons (.dict (.cons "id" (.str "b")
        (.cons "label" (.str "B") (.cons "children" (.list (.cons
          (.dict (.cons "id" (.str "c") (.cons "label" (.str "C")
            PyDict.nil))) PyList.nil)) PyDict.nil)))) PyList.nil))
        PyDict.nil))))
    ⟨["id", "label", "path", "scd"],
      [nodeRow (.str "a") (.str "A") [] .none,
       nodeRow (.str "b") (.str "B") [.str "A"] .none,
       nodeRow (.str "c") (.str "C") [.str "A", .str "B"] .none]⟩
    [⟨"a", "A", ["A"], false⟩, ⟨"b", "B", ["B"], false⟩,
     ⟨"c", "C", ["C"], false⟩]
    rfl rfl rfl rfl rfl rfl
    ⟨"c", "C", ["C"], false⟩ (by simp)

/-! ## Fuel is immaterial: the size-derived fuel of the walker never runs
out, so `walk` and `walkTop` compute the same result at any larger fuel.
This shows the fuel parameter is an artifact of the embedding, not of the
embedded program. -/

lemma pySize_pos : ∀ v : PyVal, 1 ≤ pySize v
  | .none => Nat.le_refl 1
  | .nan => Nat.le_refl 1
  | .bool _ => Nat.le_refl 1
  | .int _ => Nat.le_refl 1
  | .float _ => Nat.le_refl 1
  | .str _ => Nat.le_refl 1
  | .list _ => Nat.le_add_right 1 _
  | .dict _ => Nat.le_add_right 1 _

lemma pySizeL_pos : ∀ xs : PyList, 1 ≤ pySizeL xs
  | .nil => Nat.le_refl 1
  | .cons v rest => by
    simp only [pySizeL]
    omega

lemma pySizeD_pos : ∀ d : PyDict, 1 ≤ pySizeD d
  | .nil => Nat.le_refl 1
  | .cons k v rest => by
    simp only [pySizeD]
    omega

lemma walkListF_nil : ∀ (f : Nat) (anc : List PyVal),
    walkListF f PyList.nil anc = .ok []
  | 0, _ => rfl
  | _ + 1, _ => rfl

lemma pyGet_size : ∀ (d : PyDict) (k : String),
    pyGet d k = .none ∨ pySize (pyGet d k) + 2 ≤ pySizeD d
  | .nil, _ => Or.inl rfl
  | .cons k0 v0 rest, k => by
    by_cases h0 : (k0 == k) = true
    · right
      have : pyGet (PyDict.cons k0 v0 rest) k = v0 := by
        simp [pyGet, h0]
      rw [this]
      have := pySizeD_pos rest
      simp only [pySizeD]
      omega
    · have heq : pyGet (PyDict.cons k0 v0 rest) k = pyGet rest k := by
        simp [pyGet, h0]
      rw [heq]
      rcases pyGet_size rest k with h | h
      · exact Or.inl h
      · right
        have := pySize_pos v0
        simp only [pySizeD]
        omega

lemma pyOr_cases (a b : PyVal) : pyOr a b = a ∨ pyOr a b = b := by
  unfold pyOr
  by_cases h : pyTruthy a = true
  · exact Or.inl (if_pos h)
  · exact Or.inr (if_neg h)

lemma childrenOf_size {node : PyDict} {xs : PyList}
    (h : childrenOf node = .list xs) :
    xs = PyList.nil ∨ pySizeL xs + 3 ≤ pySizeD node := by
  unfold childrenOf at h
  rcases pyOr_cases (pyOr (pyGet node "children") (pyGet node "nodes"))
      (.list .nil) with h1 | h1
  · have hget : pyGet node "children" = .list xs ∨
        pyGet node "nodes" = .list xs := by
      rcases pyOr_cases (pyGet node "children") (pyGet node "nodes") with
        h2 | h2
      · exact Or.inl (by rw [← h2, ← h1, h])
      · exact Or.inr (by rw [← h2, ← h1, h])
    right
    rcases hget with h2 | h2
    · rcases pyGet_size node "children" with h3 | h3
      · rw [h2] at h3
        exact absurd h3 (by simp)
      · rw [h2] at h3
        simp only [pySize] at h3
        omega
    · rcases pyGet_size node "nodes" with h3 | h3
      · rw [h2] at h3
        exact absurd h3 (by simp)
      · rw [h2] at h3
        simp only [pySize] at h3
        omega
  · left
    rw [h1] at h
    cases h
    rfl

lemma walk_fuel_irrel : ∀ f : Nat,
    (∀ g node anc, pySizeD node < f → pySizeD node < g →
      walkF f node anc = walkF g node anc)
    ∧ (∀ g xs anc, pySizeL xs < f → pySizeL xs < g →
      walkListF f xs anc = walkListF g xs anc) := by
  intro f
  induction f using Nat.strong_induction_on with
  | _ f ih =>
    constructor
    · intro g node anc hf hg
      have hf1 : 1 ≤ pySizeD node := pySizeD_pos node
      cases f with
      | zero => omega
      | succ f2 =>
        cases g with
        | zero => omega
        | succ g2 =>
          rw [walkF, walkF]
          cases hch : childrenOf node with
          | list xs =>
            rcases childrenOf_size hch with rfl | hsz
            · simp only [walkListF_nil]
            · have hrec : walkListF f2 xs
                  (if pyTruthy (labelOf node) = true then
                    anc ++ [labelOf node] else anc) =
                  walkListF g2 xs
                  (if pyTruthy (labelOf node) = true then
                    anc ++ [labelOf node] else anc) :=
                (ih f2 (by omega)).2 g2 xs _ (by omega) (by omega)
              simp only [hrec]
          | dict kvs => rfl
          | str sv => rfl
          | none => rfl
          | nan => rfl
          | bool b => rfl
          | int n => rfl
          | float lex => rfl
    · intro g xs anc hf hg
      cases xs with
      | nil =>
        rw [walkListF_nil, walkListF_nil]
      | cons x rest =>
        have hx := pySize_pos x
        have hrest := pySizeL_pos rest
        cases f with
        | zero =>
          simp only [pySizeL] at hf
          omega
        | succ f2 =>
          cases g with
          | zero =>
            simp only [pySizeL] at hg
            omega
          | succ g2 =>
            simp only [pySizeL] at hf hg
            cases x with
            | dict d =>
              have hd : pySize (PyVal.dict d) = 1 + pySizeD d := rfl
              have h1 : walkF f2 d anc = walkF g2 d anc :=
                (ih f2 (by omega)).1 g2 d anc (by omega) (by omega)
              have h2 : walkListF f2 rest anc = walkListF g2 rest anc :=
                (ih f2 (by omega)).2 g2 rest anc (by omega) (by omega)
              rw [walkListF, walkListF]
              simp only [h1, h2]
            | none =>
              simp only [walkListF]
              exact (ih f2 (by omega)).2 g2 rest anc (by omega) (by omega)
            | nan =>
              simp only [walkListF]
              exact (ih f2 (by omega)).2 g2 rest anc (by omega) (by omega)
            | bool b =>
              simp only [walkListF]
              exact (ih f2 (by omega)).2 g2 rest anc (by omega) (by omega)
            | int n =>
              simp only [walkListF]
              exact (ih f2 (by omega)).2 g2 rest anc (by omega) (by omega)
            | float lex =>
              simp only [walkListF]
              exact (ih f2 (by omega)).2 g2 rest anc (by omega) (by omega)
            | str sv =>
              simp only [walkListF]
              exact (ih f2 (by omega)).2 g2 rest anc (by omega) (by omega)
            | list ys =>
              simp only [walkListF]
              exact (ih f2 (by omega)).2 g2 rest anc (by omega) (by omega)

/-- The walker's result does not depend on the fuel, as long as the fuel
exceeds the node's size — in particular `walk`'s own fuel qualifies. -/
lemma walk_eq_walkF {g : Nat} (node : PyDict) (anc : List PyVal)
    (hg : pySizeD node < g) : walk node anc = walkF g node anc :=
  (walk_fuel_irrel (pySizeD node + 1)).1 g node anc (Nat.lt_succ_self _) hg

/-- The top-level walker loop likewise. -/
lemma walkTop_eq_walkListF {g : Nat} (xs : PyList)
    (hg : pySizeL xs < g) : walkTop xs = walkListF g xs [] :=
  (walk_fuel_irrel (pySizeL xs + 1)).2 g xs [] (Nat.lt_succ_self _) hg

/-! ## When the walker fails -/

/-- A node whose `children` expression is a truthy non-iterable — the
condition under which Python's `for c in children` raises `TypeError`. -/
def badChildren (node : PyDict) : Bool :=
  match childrenOf node with
  | .int _ => true
  | .bool _ => true
  | .float _ => true
  | .nan => true
  | _ => false

lemma walkF_error_iff : ∀ fuel : Nat,
    (∀ node anc, pySizeD node < fuel →
      ((∃ e, walkF fuel node anc = .error e) ↔
        ∃ p ∈ dfsF fuel node anc, badChildren p.1 = true))
    ∧ (∀ xs anc, pySizeL xs < fuel →
      ((∃ e, walkListF fuel xs anc = .error e) ↔
        ∃ p ∈ dfsListF fuel xs anc, badChildren p.1 = true)) := by
  intro fuel
  induction fuel using Nat.strong_induction_on with
  | _ fuel ih =>
    constructor
    · intro node anc hf
      have hf1 : 1 ≤ pySizeD node := pySizeD_pos node
      cases fuel with
      | zero => omega
      | succ f2 =>
        rw [walkF, dfsF]
        cases hch : childrenOf node with
        | list xs =>
          rcases childrenOf_size hch with rfl | hsz
          · simp only [walkListF_nil]
            constructor
            · rintro ⟨e, he⟩
              exact absurd he (by simp)
            · rintro ⟨p, hp, hbad⟩
              rcases List.mem_cons.mp hp with rfl | habs
              · rw [show badChildren node = false from by
                  simp [badChildren, hch]] at hbad
                exact absurd hbad (by simp)
              · rw [show dfsListF f2 PyList.nil
                    (if pyTruthy (labelOf node) = true then
                      anc ++ [labelOf node] else anc) = [] from by
                  cases f2 <;> rfl] at habs
                exact absurd habs (List.not_mem_nil p)
          · have hrec := (ih f2 (by omega)).2 xs
              (if pyTruthy (labelOf node) = true then
                anc ++ [labelOf node] else anc) (by omega)
            constructor
            · rintro ⟨e, he⟩
              cases hw : walkListF f2 xs
                  (if pyTruthy (labelOf node) = true then
                    anc ++ [labelOf node] else anc) with
              | ok rs =>
                simp only [hw] at he
                exact absurd he (by simp)
              | error e2 =>
                rcases hrec.mp ⟨e2, hw⟩ with ⟨p, hp, hbad⟩
                exact ⟨p, List.mem_cons_of_mem _ hp, hbad⟩
            · rintro ⟨p, hp, hbad⟩
              rcases List.mem_cons.mp hp with rfl | hmem
              · rw [show badChildren node = false from by
                  simp [badChildren, hch]] at hbad
                exact absurd hbad (by simp)
              · rcases hrec.mpr ⟨p, hmem, hbad⟩ with ⟨e, he⟩
                refine ⟨e, ?_⟩
                simp only [he]
        | dict kvs =>
          constructor
          · rintro ⟨e, he⟩
            exact absurd he (by simp)
          · rintro ⟨p, hp, hbad⟩
            rcases List.mem_cons.mp hp with rfl | habs
            · rw [show badChildren node = false from by
                simp [badChildren, hch]] at hbad
              exact absurd hbad (by simp)
            · exact absurd habs (List.not_mem_nil p)
        | str sv =>
          constructor
          · rintro ⟨e, he⟩
            exact absurd he (by simp)
          · rintro ⟨p, hp, hbad⟩
            rcases List.mem_cons.mp hp with rfl | habs
            · rw [show badChildren node = false from by
                simp [badChildren, hch]] at hbad
              exact absurd hbad (by simp)
            · exact absurd habs (List.not_mem_nil p)
        | none =>
          constructor
          · rintro ⟨e, he⟩
            exact absurd he (by simp)
          · rintro ⟨p, hp, hbad⟩
            rcases List.mem_cons.mp hp with rfl | habs
            · rw [show badChildren node = false from by
                simp [badChildren, hch]] at hbad
              exact absurd hbad (by simp)
            · exact absurd habs (List.not_mem_nil p)
        | nan =>
          exact ⟨fun _ => ⟨(node, anc), List.mem_cons_self _ _, by
              simp [badChildren, hch]⟩,
            fun _ => ⟨.notIterable, rfl⟩⟩
        | bool b =>
          exact ⟨fun _ => ⟨(node, anc), List.mem_cons_self _ _, by
              simp [badChildren, hch]⟩,
            fun _ => ⟨.notIterable, rfl⟩⟩
        | int n =>
          exact ⟨fun _ => ⟨(node, anc), List.mem_cons_self _ _, by
              simp [badChildren, hch]⟩,
            fun _ => ⟨.notIterable, rfl⟩⟩
        | float lex =>
          exact ⟨fun _ => ⟨(node, anc), List.mem_cons_self _ _, by
              simp [badChildren, hch]⟩,
            fun _ => ⟨.notIterable, rfl⟩⟩
    · intro xs anc hf
      cases xs with
      | nil =>
        rw [walkListF_nil]
        constructor
        · rintro ⟨e, he⟩
          exact absurd he (by simp)
        · rintro ⟨p, hp, _⟩
          rw [show dfsListF fuel PyList.nil anc = [] from by
            cases fuel <;> rfl] at hp
          exact absurd hp (List.not_mem_nil p)
      | cons x rest =>
        have hx := pySize_pos x
        have hrest := pySizeL_pos rest
        cases fuel with
        | zero =>
          simp only [pySizeL] at hf
          omega
        | succ f2 =>
          simp only [pySizeL] at hf
          cases x with
          | dict d =>
            have hd : pySize (PyVal.dict d) = 1 + pySizeD d := rfl
            have ihd := (ih f2 (by omega)).1 d anc (by omega)
            have ihr := (ih f2 (by omega)).2 rest anc (by omega)
            rw [walkListF, dfsListF]
            constructor
            · rintro ⟨e, he⟩
              cases hw : walkF f2 d anc with
              | ok rs =>
                cases hr : walkListF f2 rest anc with
                | ok more =>
                  simp only [hw, hr] at he
                  exact absurd he (by simp)
                | error e2 =>
                  rcases ihr.mp ⟨e2, hr⟩ with ⟨p, hp, hbad⟩
                  exact ⟨p, List.mem_append_right _ hp, hbad⟩
              | error e2 =>
                rcases ihd.mp ⟨e2, hw⟩ with ⟨p, hp, hbad⟩
                exact ⟨p, List.mem_append_left _ hp, hbad⟩
            · rintro ⟨p, hp, hbad⟩
              rcases List.mem_append.mp hp with hmem | hmem
              · rcases ihd.mpr ⟨p, hmem, hbad⟩ with ⟨e, he⟩
                refine ⟨e, ?_⟩
                simp only [he]
              · rcases ihr.mpr ⟨p, hmem, hbad⟩ with ⟨e, he⟩
                cases hw : walkF f2 d anc with
                | ok rs =>
                  refine ⟨e, ?_⟩
                  simp only [hw, he]
                | error e2 =>
                  refine ⟨e2, ?_⟩
                  simp only [hw]
          | none =>
            simp only [walkListF, dfsListF, List.nil_append]
            exact (ih f2 (by omega)).2 rest anc (by omega)
          | nan =>
            simp only [walkListF, dfsListF, List.nil_append]
            exact (ih f2 (by omega)).2 rest anc (by omega)
          | bool b =>
            simp only [walkListF, dfsListF, List.nil_append]
            exact (ih f2 (by omega)).2 rest anc (by omega)
          | int n =>
            simp only [walkListF, dfsListF, List.nil_append]
            exact (ih f2 (by omega)).2 rest anc (by omega)
          | float lex =>
            simp only [walkListF, dfsListF, List.nil_append]
            exact (ih f2 (by omega)).2 rest anc (by omega)
          | str sv =>
            simp only [walkListF, dfsListF, List.nil_append]
            exact (ih f2 (by omega)).2 rest anc (by omega)
          | list ys =>
            simp only [walkListF, dfsListF, List.nil_append]
            exact (ih f2 (by omega)).2 rest anc (by omega)

/-- The walker fails exactly when some visited node's `children` expression
is a truthy non-iterable (and then with the `TypeError`); on every other
input it produces the flattened rows. -/
lemma walk_error_iff (node : PyDict) (anc : List PyVal) :
    (∃ e, walk node anc = .error e) ↔
      ∃ p ∈ dfsNodes node anc, badChildren p.1 = true :=
  (walkF_error_iff (pySizeD node + 1)).1 node anc (Nat.lt_succ_self _)

/-! ## parse_table error discipline and the driver -/

lemma walkF_error (fuel : Nat) :
    (∀ node anc e, walkF fuel node anc = .error e → e = .notIterable)
    ∧ (∀ xs anc e, walkListF fuel xs anc = .error e → e = .notIterable) := by
  induction fuel with
  | zero =>
    constructor
    · intro node anc e h
      rw [walkF] at h
      exact (Except.error.inj h).symm
    · intro xs anc e h
      cases xs with
      | nil => exact absurd h (by simp [walkListF])
      | cons x rest =>
        rw [walkListF] at h
        exact (Except.error.inj h).symm
  | succ f ih =>
    constructor
    · intro node anc e h
      rw [walkF] at h
      split at h
      · split at h
        · exact absurd h (by simp)
        · rename_i e2 hrec
          rw [← Except.error.inj h]
          exact ih.2 _ _ _ hrec
      · exact absurd h (by simp)
      · exact absurd h (by simp)
      · exact absurd h (by simp)
      · exact (Except.error.inj h).symm
    · intro xs anc e h
      cases xs with
      | nil => exact absurd h (by simp [walkListF])
      | cons x rest =>
        cases x with
        | dict d =>
          rw [walkListF] at h
          split at h
          · split at h
            · exact absurd h (by simp)
            · rename_i e2 hrest
              rw [(Except.error.inj h) ] at hrest
              exact ih.2 _ _ _ hrest
          · rename_i e2 hw
            rw [(Except.error.inj h)] at hw
            exact ih.1 _ _ _ hw
        | none =>
          simp only [walkListF] at h
          exact ih.2 _ _ _ h
        | nan =>
          simp only [walkListF] at h
          exact ih.2 _ _ _ h
        | bool b =>
          simp only [walkListF] at h
          exact ih.2 _ _ _ h
        | int n =>
          simp only [walkListF] at h
          exact ih.2 _ _ _ h
        | float lex =>
          simp only [walkListF] at h
          exact ih.2 _ _ _ h
        | str sv =>
          simp only [walkListF] at h
          exact ih.2 _ _ _ h
        | list ys =>
          simp only [walkListF] at h
          exact ih.2 _ _ _ h

lemma parse_table_some_not_unsupported {text name : String} {d : PyVal}
    (h1 : strEndsWith (pyLower name) ".tsv" = false)
    (h2 : strEndsWith (pyLower name) ".csv" = false)
    (hj : jsonLoads text = some d) :
    ¬parse_table text name = .error .unsupportedFormat := by
  intro habs
  rw [parse_table] at habs
  simp only [h1, h2, Bool.false_eq_true, if_false, hj] at habs
  cases d with
  | dict dd =>
    simp only at habs
    cases hw : walk dd [] with
    | ok rows =>
      rw [hw] at habs
      exact absurd habs (by simp)
    | error e =>
      rw [hw] at habs
      have he : e = .notIterable := (walkF_error _).1 _ _ _ hw
      rw [he] at habs
      exact absurd habs (by simp)
  | list xs =>
    simp only at habs
    by_cases hsw : startsWithDict xs = true
    · rw [if_pos hsw] at habs
      cases hf : flatRows xs with
      | some rows =>
        rw [hf] at habs
        exact absurd habs (by simp)
      | none =>
        rw [hf] at habs
        exact absurd habs (by simp)
    · rw [if_neg hsw] at habs
      cases hw : walkTop xs with
      | ok rows =>
        rw [hw] at habs
        exact absurd habs (by simp)
      | error e =>
        rw [hw] at habs
        have he : e = .notIterable := (walkF_error _).2 _ _ _ hw
        rw [he] at habs
        exact absurd habs (by simp)
  | none => exact absurd habs (by simp)
  | nan => exact absurd habs (by simp)
  | bool b => exact absurd habs (by simp)
  | int n => exact absurd habs (by simp)
  | float lex => exact absurd habs (by simp)
  | str sv => exact absurd habs (by simp)

/-- The run of `main` in which the mandatory 3.x file is located and
downloads as text that is neither tabular (by name) nor JSON, while a
healthy 2.x file is also available. -/
def exEnvFormat : Env :=
  ⟨[⟨"Content Taxonomy 3.0.json", "u3"⟩, ⟨"Content Taxonomy 2.2.tsv", "u2"⟩],
    fun u => if u == "u3" then .ok "not json"
      else .ok "Unique ID\tName\n1-1\tArts"⟩

/-- C2 counterexample: with `exEnvFormat` the 3.x text raises the
`FormatError`; the run then ends with completion code 1 having written only
the raw 3.x file — the 2.x branch, although located and downloadable, never
runs.  The `FormatError` is therefore not caught at the branch boundary and
does abort the other branch, contrary to the claim's last sentence. -/
theorem C2_counterexample :
    parse_table "not json" "Content Taxonomy 3.0.json" =
      .error .unsupportedFormat
    ∧ pick_latest exEnvFormat.files 2 = some ⟨"Content Taxonomy 2.2.tsv", "u2"⟩
    ∧ mainRun exEnvFormat = (1, [.raw "Content Taxonomy 3.0.json"]) :=
  ⟨rfl, rfl, rfl⟩

/-- C2 (amended): `parse_table` fails with the `FormatError`
(`ValueError("Unsupported file format ...")`) exactly when the file name's
extension is neither `.tsv` nor `.csv` and the text is not valid JSON; for
every name with a tabular extension it returns a table.  (A JSON text never
raises the `FormatError`, though a tree whose `children`/`nodes` field is a
truthy non-iterable raises a `TypeError` instead of producing a table.)
A `FormatError` is NOT caught at the branch boundary: raised while parsing
the 3.x file it ends the run with code 1 before the 2.x branch, and raised
while parsing the 2.x file it ends the run with code 1.  (The final
conjunct characterises the `TypeError` exactly: the walker fails iff some
visited node's children expression is a truthy non-iterable.) -/
theorem C2_format_error_amended :
    (∀ text name : String,
      parse_table text name = .error .unsupportedFormat ↔
        (strEndsWith (pyLower name) ".tsv" = false ∧
          strEndsWith (pyLower name) ".csv" = false ∧
          jsonLoads text = Option.none))
    ∧ (∀ text name : String,
        (strEndsWith (pyLower name) ".tsv" = true ∨
          strEndsWith (pyLower name) ".csv" = true) →
        ∃ df, parse_table text name = .ok df)
    ∧ (∀ (env : Env) f3 txt3 e, pick_latest env.files 3 = some f3 →
        env.download f3.download_url = .ok txt3 →
        parse_table txt3 f3.name = .error e →
        mainRun env = (1, [.raw f3.name]))
    ∧ (∀ (env : Env) f3 txt3 df3 f2 txt2 e,
        pick_latest env.files 3 = some f3 →
        env.download f3.download_url = .ok txt3 →
        parse_table txt3 f3.name = .ok df3 →
        pick_latest env.files 2 = some f2 →
        env.download f2.download_url = .ok txt2 →
        parse_table txt2 f2.name = .error e →
        (mainRun env).1 = 1)
    ∧ parse_table "\x7b\"id\":\"a\",\"label\":\"b\",\"children\":5\x7d"
        "x.json" = .error .notIterable
    ∧ (∀ node anc, (∃ e, walk node anc = .error e) ↔
        ∃ p ∈ dfsNodes node anc, badChildren p.1 = true) := by
  refine ⟨?_, ?_, ?_, ?_, rfl, fun node anc => walk_error_iff node anc⟩
  · intro text name
    constructor
    · intro h
      by_cases h1 : strEndsWith (pyLower name) ".tsv" = true
      · rw [parse_table] at h
        rw [if_pos h1] at h
        exact absurd h (by simp)
      · have h1f := Bool.eq_false_iff.mpr h1
        by_cases h2 : strEndsWith (pyLower name) ".csv" = true
        · rw [parse_table] at h
          rw [if_neg h1, if_pos h2] at h
          exact absurd h (by simp)
        · have h2f := Bool.eq_false_iff.mpr h2
          cases hj : jsonLoads text with
          | none => exact ⟨h1f, h2f, rfl⟩
          | some d =>
            exact absurd h (parse_table_some_not_unsupported h1f h2f hj)
    · rintro ⟨h1, h2, hj⟩
      rw [parse_table]
      simp only [h1, h2, Bool.false_eq_true, if_false, hj]
  · intro text name h
    by_cases h1 : strEndsWith (pyLower name) ".tsv" = true
    · exact ⟨read_csv text '\t' (headerScan (pySplitlines text)), by
        simp only [parse_table, h1, if_true]⟩
    · rcases h with h | h
      · exact absurd h h1
      · exact ⟨read_csv text ',' (headerScan (pySplitlines text)), by
          simp only [parse_table, h1, h, Bool.false_eq_true, if_false,
            if_true]⟩
  · intro env f3 txt3 e hp3 hd3 hpe
    simp only [mainRun, hp3, hd3, hpe]
  · intro env f3 txt3 df3 f2 txt2 e hp3 hd3 hok3 hp2 hd2 hpe2
    simp only [mainRun, hp3, hd3, hok3, hp2, hd2, hpe2]

/-- The run of `main` in which both files are located, the mandatory 3.x
file downloads and parses, and the optional 2.x download fails with a
transport error. -/
def exEnvDown2 : Env :=
  ⟨[⟨"Content Taxonomy 3.1.tsv", "u3"⟩, ⟨"Content Taxonomy 2.2.tsv", "u2"⟩],
    fun u => if u == "u3" then .ok "Unique ID\tName\n1-1\tArts"
      else .error .transport⟩

/-- C1 counterexample: a download failure on the optional 2.x branch while
the mandatory branch succeeds.  The claim requires a completed run with a
zero completion code and only the mandatory artifact written; the code
leaves the `requests` exception uncaught, so the run ends with completion
code 1 (after writing the mandatory artifacts). -/
theorem C1_counterexample :
    pick_latest exEnvDown2.files 3 = some ⟨"Content Taxonomy 3.1.tsv", "u3"⟩
    ∧ pick_latest exEnvDown2.files 2 = some ⟨"Content Taxonomy 2.2.tsv", "u2"⟩
    ∧ exEnvDown2.download "u2" = .error .transport
    ∧ mainRun exEnvDown2 = (1, [.raw "Content Taxonomy 3.1.tsv", .norm3]) :=
  ⟨rfl, rfl, rfl, rfl⟩

/-- C1 (amended): the driver ends with completion code 0 exactly when the
mandatory 3.x branch locates, downloads and parses its file AND the
optional 2.x branch is either absent or also downloads and parses its
file.  Equivalently: a missing 3.x file, a failed download or parse on the
3.x branch, and a failed download or parse on a located 2.x branch all end
the run with a non-zero code; only normalization failures (and the absence
of the 2.x file) degrade to warnings with a zero completion code. -/
theorem C1_completion_code_amended :
    ∀ env : Env,
      ((mainRun env).1 = 0 ↔
        ∃ f3 txt3 df3, pick_latest env.files 3 = some f3
          ∧ env.download f3.download_url = .ok txt3
          ∧ parse_table txt3 f3.name = .ok df3
          ∧ (pick_latest env.files 2 = Option.none ∨
              ∃ f2 txt2 df2, pick_latest env.files 2 = some f2
                ∧ env.download f2.download_url = .ok txt2
                ∧ parse_table txt2 f2.name = .ok df2)) := by
  intro env
  cases hp3 : pick_latest env.files 3 with
  | none =>
    simp only [mainRun, hp3]
    constructor
    · intro habs
      exact absurd habs (by simp)
    · rintro ⟨f3, txt3, df3, hcontra, _⟩
      exact absurd hcontra (by simp)
  | some f3 =>
    cases hd3 : env.download f3.download_url with
    | error e =>
      simp only [mainRun, hp3, hd3]
      constructor
      · intro habs
        exact absurd habs (by simp)
      · rintro ⟨f3b, txt3, df3, hp3b, hd3b, _⟩
        cases Option.some.inj hp3b
        rw [hd3] at hd3b
        exact absurd hd3b (by simp)
    | ok txt3 =>
      cases hpt3 : parse_table txt3 f3.name with
      | error e =>
        simp only [mainRun, hp3, hd3, hpt3]
        constructor
        · intro habs
          exact absurd habs (by simp)
        · rintro ⟨f3b, txt3b, df3b, hp3b, hd3b, hpt3b, _⟩
          cases Option.some.inj hp3b
          rw [hd3] at hd3b
          cases Except.ok.inj hd3b
          rw [hpt3] at hpt3b
          exact absurd hpt3b (by simp)
      | ok df3 =>
        cases hp2 : pick_latest env.files 2 with
        | none =>
          simp only [mainRun, hp3, hd3, hpt3, hp2]
          constructor
          · intro _
            exact ⟨f3, txt3, df3, rfl, hd3, hpt3, Or.inl trivial⟩
          · intro _
            trivial
        | some f2 =>
          cases hd2 : env.download f2.download_url with
          | error e =>
            simp only [mainRun, hp3, hd3, hpt3, hp2, hd2]
            constructor
            · intro habs
              exact absurd habs (by simp)
            · rintro ⟨f3b, txt3b, df3b, hp3b, hd3b, hpt3b, hrest⟩
              rcases hrest with h2n | ⟨f2b, txt2b, df2b, hp2b, hd2b, hpt2b⟩
              · exact absurd h2n (by simp)
              · cases Option.some.inj hp2b
                rw [hd2] at hd2b
                exact absurd hd2b (by simp)
          | ok txt2 =>
            cases hpt2 : parse_table txt2 f2.name with
            | error e =>
              simp only [mainRun, hp3, hd3, hpt3, hp2, hd2, hpt2]
              constructor
              · intro habs
                exact absurd habs (by simp)
              · rintro ⟨f3b, txt3b, df3b, hp3b, hd3b, hpt3b, hrest⟩
                rcases hrest with h2n | ⟨f2b, txt2b, df2b, hp2b, hd2b, hpt2b⟩
                · exact absurd h2n (by simp)
                · cases Option.some.inj hp2b
                  rw [hd2] at hd2b
                  cases Except.ok.inj hd2b
                  rw [hpt2] at hpt2b
                  exact absurd hpt2b (by simp)
            | ok df2 =>
              simp only [mainRun, hp3, hd3, hpt3, hp2, hd2, hpt2]
              constructor
              · intro _
                exact ⟨f3, txt3, df3, rfl, hd3, hpt3,
                  Or.inr ⟨f2, txt2, df2, rfl, hd2, hpt2⟩⟩
              · intro _
                trivial

end IabCat
